import Mathlib

/-!
Verification of the minimum-payments netting engine and the pain.001
payment-file formatter of `finance-portal-lib` (`src/settlement`, the file
exporting `minPaymentsAlgorithm`, `format`, `generatePaymentFile`, and the
helper `buildDecimalRate` of `src/admin/api.js`).

Embedding conventions
 * Monetary amounts are `big.js` values.  A `Big` is an exact signed
   decimal — a digit coefficient and a base-10 exponent — and the
   operations the source uses (`plus`, `times(-1)`, `cmp`, `lt`, `lte`,
   `gt`, `eq`, `round`, `toString`) are exact.  It is embedded as a pair
   of an integer numerator and a ℕ exponent denoting `num / 10 ^ e`,
   with the operations defined on that representation and a valuation
   `Big.val : Big → ℚ` giving the denoted number.  `Big.toString`
   normalises (big.js strips trailing coefficient zeros on parsing and
   arithmetic), so equal values render equally.
 * JavaScript arrays are `List`s.  `arr.pop()` removes the LAST element,
   so the two netting worklists, which the source pops from the tail, are
   passed to the loop embedding reversed (head of the Lean list = tail of
   the JS array).
 * JavaScript objects whose keys are integer-like strings enumerate their
   keys in ascending numeric order (ECMA-262 ordinary own-property order),
   so the payment matrix object is embedded as an association list with
   ascending numeric keys and last-write-wins cells.
 * Thrown `Error`s become `Except` errors; the tags name the distinct
   `throw` sites of the source.  Accessing a property of `undefined`
   (e.g. `p.accounts[0].id` when `accounts` is empty, or
   `debtors[debtors.length - 1].amount` when `debtors` is empty) throws a
   `TypeError` in JavaScript; those sites get the `typeError` tag.
 * The currency registry `currencies.json` is not part of the sources
   provided, so the engine takes the registry as an explicit argument
   `reg : String → Option ℕ` (code → decimal places); a concrete table
   `currencies` modelled from the spec is used for concrete inputs.
-/

/-- A big.js number: the exact decimal `num / 10 ^ e`.  (big.js keeps a
sign, digit array and exponent; any such triple is one of these values,
and the operations below are its operations transported onto this
representation.) -/
structure Big where
  num : ℤ
  e : ℕ
deriving Repr, DecidableEq

/-- `Big(0)`. -/
def Big.zero : Big := ⟨0, 0⟩

/-- The rational number a `Big` denotes. -/
def Big.val (a : Big) : ℚ := (a.num : ℚ) / 10 ^ a.e

/-- `a.plus(b)`: exact decimal addition (align to the larger exponent). -/
def Big.add (a b : Big) : Big :=
  ⟨a.num * 10 ^ (max a.e b.e - a.e) + b.num * 10 ^ (max a.e b.e - b.e),
   max a.e b.e⟩

/-- `a.times(-1)` (the only multiplication the engine performs). -/
def Big.timesNeg1 (a : Big) : Big := ⟨-a.num, a.e⟩

/-- `a.lte(b)` / `cmp ≤ 0`: exact comparison by cross-multiplication. -/
def Big.le (a b : Big) : Prop := a.num * 10 ^ b.e ≤ b.num * 10 ^ a.e

/-- `a.lt(b)`. -/
def Big.lt (a b : Big) : Prop := a.num * 10 ^ b.e < b.num * 10 ^ a.e

/-- `a.eq(b)`: equality of denoted values. -/
def Big.eqv (a b : Big) : Prop := a.num * 10 ^ b.e = b.num * 10 ^ a.e

instance (a b : Big) : Decidable (Big.le a b) := by unfold Big.le; infer_instance

instance (a b : Big) : Decidable (Big.lt a b) := by unfold Big.lt; infer_instance

instance (a b : Big) : Decidable (Big.eqv a b) := by unfold Big.eqv; infer_instance

/-- `a.round(dp)` with the default big.js `ROUND_HALF_UP` mode (ties away
from zero).  The validator only uses it through `round(x, dp).eq(x)`. -/
def Big.round (a : Big) (dp : ℕ) : Big :=
  if a.e ≤ dp then a
  else
    let d := 10 ^ (a.e - dp)
    let r : ℕ := (a.num.natAbs + d / 2) / d
    ⟨if a.num < 0 then -(r : ℤ) else (r : ℤ), dp⟩

/-- Valuation lemma for addition. -/
theorem Big.val_add (a b : Big) : (Big.add a b).val = a.val + b.val := by
  have h10 : (10 : ℚ) ≠ 0 := by norm_num
  have key : ∀ (x : ℚ) (k m : ℕ), k ≤ m → x * 10 ^ (m - k) / 10 ^ m = x / 10 ^ k := by
    intro x k m h
    rw [div_eq_div_iff (pow_ne_zero _ h10) (pow_ne_zero _ h10), mul_assoc,
      ← pow_add]
    congr 2
    omega
  unfold Big.add Big.val
  push_cast
  rw [add_div, key _ _ _ (le_max_left a.e b.e), key _ _ _ (le_max_right a.e b.e)]

/-- Valuation lemma for `times(-1)`. -/
theorem Big.val_timesNeg1 (a : Big) : (Big.timesNeg1 a).val = -a.val := by
  unfold Big.timesNeg1 Big.val
  push_cast
  ring

/-- `Big.le` decides `≤` of the denoted values. -/
theorem Big.le_iff (a b : Big) : Big.le a b ↔ a.val ≤ b.val := by
  unfold Big.le Big.val
  rw [div_le_div_iff₀ (by positivity) (by positivity)]
  exact_mod_cast Iff.rfl

/-- `Big.lt` decides `<` of the denoted values. -/
theorem Big.lt_iff (a b : Big) : Big.lt a b ↔ a.val < b.val := by
  unfold Big.lt Big.val
  rw [div_lt_div_iff₀ (by positivity) (by positivity)]
  exact_mod_cast Iff.rfl

/-- `Big.eqv` decides equality of the denoted values. -/
theorem Big.eqv_iff (a b : Big) : Big.eqv a b ↔ a.val = b.val := by
  unfold Big.eqv Big.val
  rw [div_eq_div_iff (by positivity) (by positivity)]
  exact_mod_cast Iff.rfl

/-- The zero `Big` denotes `0`. -/
theorem Big.val_zero : Big.zero.val = 0 := by
  unfold Big.zero Big.val
  norm_num

/-- One tag per distinct `throw` site of `minPaymentsAlgorithm`
(settlement module lines 61-132), named after the spec's error taxonomy,
plus `typeError` for property access on `undefined`. -/
inductive AlgoError where
  /-- line 65: 'No participants in settlement' -/
  | emptySettlement : AlgoError
  /-- line 71: 'Participant appears more than once in settlement' -/
  | duplicateParticipant : AlgoError
  /-- line 77: 'Not all currencies are the same' -/
  | mixedCurrencies : AlgoError
  /-- line 83: 'Unsupported currency ...' -/
  | unsupportedCurrency : AlgoError
  /-- line 89: '... allows ... decimal places ...' -/
  | invalidPrecision : AlgoError
  /-- line 98: 'Creditors and debtors do not sum to zero ...' -/
  | nonZeroSum : AlgoError
  /-- line 104: 'Participant has more than one account in settlement' -/
  | multipleAccounts : AlgoError
  /-- line 131: 'Failed to balance payments' -/
  | failedToBalance : AlgoError
  /-- a JavaScript TypeError from reading a property of `undefined` -/
  | typeError : AlgoError
deriving Repr, DecidableEq

/-- `netSettlementAmount` of an account in the settlement-window input. -/
structure NetAmount where
  amount : Big
  currency : String
deriving Repr, DecidableEq

/-- An account of a participant in the settlement-window input. -/
structure Account where
  id : ℕ
  netSettlementAmount : NetAmount
deriving Repr, DecidableEq

/-- A participant of the settlement-window input. -/
structure Participant where
  id : ℕ
  accounts : List Account
deriving Repr, DecidableEq

/-- The engine's input (the shape of `/settlements/id` it consumes). -/
structure SettlementInput where
  participants : List Participant
deriving Repr, DecidableEq

/-- The projected record built at lines 52-58:
`{ id, acctId, amount: Big(...), cur }`. -/
structure NetPos where
  id : ℕ
  acctId : ℕ
  amount : Big
  cur : String
deriving Repr, DecidableEq

/-- One assignment `matrix[payer][payee] = amount` performed by the
netting loop, in execution order, with the amount as an exact decimal. -/
structure Payment where
  payer : ℕ
  payee : ℕ
  amount : Big
deriving Repr, DecidableEq

/-- Lines 53-58: `p => ({ id, acctId: p.accounts[0].id, amount, cur })`.
`accounts[0]` of an empty array is `undefined`, so reading `.id` off it
throws; hence the `Option`. -/
def toNetPos (p : Participant) : Option NetPos :=
  p.accounts.head?.map fun a =>
    { id := p.id, acctId := a.id, amount := a.netSettlementAmount.amount,
      cur := a.netSettlementAmount.currency }

/-- Projects every participant, propagating the `TypeError` of an empty
`accounts` array. -/
def mapPositions : List Participant → Except AlgoError (List NetPos)
  | [] => .ok []
  | p :: ps =>
    match toNetPos p with
    | none => .error .typeError
    | some m =>
      match mapPositions ps with
      | .error e => .error e
      | .ok ms => .ok (m :: ms)

/-- `Array.prototype.findIndex`, as an `Option`-valued index. -/
def jsFindIndex (p : α → Prop) [DecidablePred p] : List α → Option ℕ
  | [] => none
  | a :: l => if p a then some 0 else (jsFindIndex p l).map (· + 1)

/-- The sort relation of line 59, `(a, b) => a.amount.cmp(b.amount)`:
ascending by amount. -/
def posLe (a b : NetPos) : Prop := Big.le a.amount b.amount

instance (a b : NetPos) : Decidable (posLe a b) := by unfold posLe; infer_instance

/-- Line 52-59: project, then sort ascending by amount.  ECMAScript
`sort` is stable, and a stable sort under a total preorder has a unique
result, so any stable Lean sort is a faithful embedding;
`List.insertionSort` is stable. -/
def sortPositions (ms : List NetPos) : List NetPos :=
  ms.insertionSort posLe

/-- The inner netting loop (lines 117-121): while debtors remain and
`creditor.amount.plus(tailDebtor.amount).lte(0)`, pop that debtor,
record `matrix[debtor.id][creditor.id] = debtor.amount`, and add the
debtor's amount to the creditor's.  The debtor list is passed with the
JS tail first; returns (remaining debtors, creditor amount, recorded
payments in execution order). -/
def payCreditor (cid : ℕ) : Big → List NetPos → List NetPos × Big × List Payment
  | camt, [] => ([], camt, [])
  | camt, d :: ds =>
    if Big.le (Big.add camt d.amount) Big.zero then
      let r := payCreditor cid (Big.add camt d.amount) ds
      (r.1, r.2.1, ⟨d.id, cid, d.amount⟩ :: r.2.2)
    else (d :: ds, camt, [])

/-- The outer netting loop (lines 113-128).  Both lists carry the JS
array tail first (the source pops creditors and debtors from the tail).
After the inner loop, if the creditor is still unpaid
(`creditor.amount.lt(0)`, line 123), the remainder
`creditor.amount.times(-1)` is drawn from the current last debtor, whose
amount is reduced in place; reading that debtor off an empty list is the
JS `TypeError`.  Returns the payments recorded and the debtors left when
the creditor list is exhausted. -/
def settleAll : List NetPos → List NetPos → Except AlgoError (List Payment × List NetPos)
  | [], ds => .ok ([], ds)
  | c :: cs, ds =>
    let r := payCreditor c.id c.amount ds
    if Big.lt r.2.1 Big.zero then
      match r.1 with
      | [] => .error .typeError
      | d :: ds2 =>
        match settleAll cs ({ d with amount := Big.add d.amount r.2.1 } :: ds2) with
        | .error e => .error e
        | .ok (es2, dr) =>
          .ok (r.2.2 ++ ⟨d.id, c.id, Big.timesNeg1 r.2.1⟩ :: es2, dr)
    else
      match settleAll cs r.1 with
      | .error e => .error e
      | .ok (es2, dr) => .ok (r.2.2 ++ es2, dr)

/-- Lines 109-111: `splitIndex = findIndex(amount.gt(0))`;
`debtors = participants.splice(splitIndex)`, `creditors = participants`.
When no amount is positive, `findIndex` returns `-1` and `splice(-1)`
removes exactly the LAST element, so the last position alone becomes the
debtor stack.  Returns (creditors, debtors), both in ascending order. -/
def splitPositions (ps : List NetPos) : List NetPos × List NetPos :=
  match jsFindIndex (fun p => Big.lt Big.zero p.amount) ps with
  | some i => (ps.take i, ps.drop i)
  | none => (ps.take (ps.length - 1), ps.drop (ps.length - 1))

/-- `participants[0].cur` of the sorted positions (defined, because the
source reads it only after the non-empty check). -/
def firstCur (ps : List NetPos) : String := ((ps.head?).map (·.cur)).getD ""

/-- Line 96: `participants.reduce((a, c) => a.plus(c.amount), Big(0))`. -/
def sumAmounts (ps : List NetPos) : Big :=
  ps.foldl (fun acc p => Big.add acc p.amount) Big.zero

/-- The validation block, lines 61-106, in source order: empty check,
duplicate-participant check, uniform-currency check, registry lookup,
decimal-places check, zero-sum check and, LAST, the
one-account-per-participant check.  On success returns the sorted
positions and the currency's decimal places. -/
def validate (reg : String → Option ℕ) (input : SettlementInput) :
    Except AlgoError (List NetPos × ℕ) :=
  match mapPositions input.participants with
  | .error e => .error e
  | .ok ms =>
    let ps := sortPositions ms
    if input.participants.length = 0 then .error .emptySettlement
    else if ¬ (ps.map (·.id)).Nodup then .error .duplicateParticipant
    else if ¬ ∀ p ∈ ps, p.cur = firstCur ps then .error .mixedCurrencies
    else
      match reg (firstCur ps) with
      | none => .error .unsupportedCurrency
      | some dp =>
        if ¬ ∀ p ∈ ps, Big.eqv (Big.round p.amount dp) p.amount then
          .error .invalidPrecision
        else if ¬ Big.eqv (sumAmounts ps) Big.zero then .error .nonZeroSum
        else if ¬ ∀ p ∈ input.participants, p.accounts.length ≤ 1 then
          .error .multipleAccounts
        else .ok (ps, dp)

/-- Decimal digits of a natural number, most significant first
(`fuel`-bounded; `n + 1` units of fuel always suffice). -/
def natToCharsGo : ℕ → ℕ → List Char
  | 0, _ => []
  | fuel + 1, n =>
    if n < 10 then [Char.ofNat (48 + n)]
    else natToCharsGo fuel (n / 10) ++ [Char.ofNat (48 + n % 10)]

/-- Decimal digits of a natural number, most significant first. -/
def natToChars (n : ℕ) : List Char := natToCharsGo (n + 1) n

/-- Drops trailing zeros of the coefficient while lowering the exponent
(big.js numbers are kept in this normal form). -/
def stripZeros (n : ℤ) : ℕ → ℤ × ℕ
  | 0 => (n, 0)
  | e + 1 => if n % 10 = 0 then stripZeros (n / 10) e else (n, e + 1)

/-- `Big.toString()`: big.js keeps coefficients free of trailing zeros
(its parser and arithmetic normalise), so the string is determined by
the value: the shortest plain decimal numeral, with a leading `0` before
the point (`10 → "10"`, `0.1 → "0.1"`, `-3 → "-3"`).  (big.js switches
to exponent notation only beyond 1e21 or below 1e-7, ranges settlement
amounts never leave; the plain form is embedded.) -/
def Big.toString (a : Big) : String :=
  if a.num = 0 then "0"
  else
    let s := stripZeros a.num a.e
    let m := s.1.natAbs
    let digits :=
      if s.2 = 0 then natToChars m
      else
        let frac := natToChars (m % 10 ^ s.2)
        natToChars (m / 10 ^ s.2) ++ '.' ::
          (List.replicate (s.2 - frac.length) '0' ++ frac)
    String.mk (if a.num < 0 then '-' :: digits else digits)

/-- Ascending sort of numeric keys: integer-like own-property keys of a
JavaScript object are enumerated in ascending numeric order. -/
def sortKeys (l : List ℕ) : List ℕ := l.insertionSort (· ≤ ·)

/-- The cell `matrix[p][c]` after all assignments in `es` have run:
the amount of the last assignment to that key pair, if any. -/
def lastCell (es : List Payment) (p c : ℕ) : Option Big :=
  ((es.filter (fun e => e.payer = p ∧ e.payee = c)).getLast?).map (·.amount)

/-- The row `matrix[p]`: one cell per payee that was assigned, keys in
ascending numeric order, last write wins. -/
def rowFor (es : List Payment) (p : ℕ) : List (ℕ × Big) :=
  (sortKeys ((es.filter (fun e => e.payer = p)).map (·.payee)).dedup).filterMap
    fun c => (lastCell es p c).map fun a => (c, a)

/-- The matrix object: line 112 seeds one empty row per debtor id, the
loop fills cells; rows are keyed in ascending numeric order. -/
def matrixRows (debtorIds : List ℕ) (es : List Payment) :
    List (ℕ × List (ℕ × Big)) :=
  (sortKeys debtorIds.dedup).map fun p => (p, rowFor es p)

/-- Cell values rendered with `Big.toString`, as the source's matrix
stores them (line 119 and 125 call `.toString()` on the amount). -/
def renderMatrix (rows : List (ℕ × List (ℕ × Big))) :
    List (ℕ × List (ℕ × String)) :=
  rows.map fun r => (r.1, r.2.map fun c => (c.1, c.2.toString))

/-- The value returned at line 140: `{ currency, matrix }`, together with
the sequence of cell assignments the loop performed (`entries`; the
matrix is exactly these assignments replayed, last write wins). -/
structure MinPayResult where
  currency : String
  entries : List Payment
  matrix : List (ℕ × List (ℕ × String))
deriving Repr, DecidableEq

/-- `minPaymentsAlgorithm` (settlement module lines 36-141): project and
sort the participants, run the validation block, split at the first
positive amount, run the netting loop (tail-first, as the source pops
from the tail), fail with `failedToBalance` if debtors remain, and
return the currency of the first input participant with the matrix. -/
def minPaymentsAlgorithm (reg : String → Option ℕ) (input : SettlementInput) :
    Except AlgoError MinPayResult :=
  match validate reg input with
  | .error e => .error e
  | .ok (ps, _) =>
    let cd := splitPositions ps
    match settleAll cd.1.reverse cd.2.reverse with
    | .error e => .error e
    | .ok (es, dr) =>
      if dr.length ≠ 0 then .error .failedToBalance
      else
        .ok { currency :=
                ((input.participants.head?.bind (·.accounts.head?)).map
                  (·.netSettlementAmount.currency)).getD ""
            , entries := es
            , matrix := renderMatrix (matrixRows (cd.2.map (·.id)) es) }

/-- Modelled from the spec: `currencies.json` is loaded by the settlement
module but is not among the provided sources.  Spec section 4.1 makes the
registry a static code-to-decimal-places table, and section 8 (S6) fixes
`USD` at 2 decimal places — the only entry the spec pins down. -/
def currencies : String → Option ℕ :=
  fun c => if c = "USD" then some 2 else none

deriving instance DecidableEq for Except

/-- The matrix component of an engine run, when the run succeeded. -/
def resultMatrix (r : Except AlgoError MinPayResult) :
    Option (List (ℕ × List (ℕ × String))) :=
  r.toOption.map (·.matrix)

/-- Scenario S1 of the spec: participants 1 (amount "10.00") and
2 (amount "-10.00"), currency USD, one account each (big.js parses
"10.00" to the normalised value `10`). -/
def s1Input : SettlementInput :=
  ⟨[⟨1, [⟨101, ⟨⟨10, 0⟩, "USD"⟩⟩]⟩, ⟨2, [⟨102, ⟨⟨-10, 0⟩, "USD"⟩⟩]⟩]⟩

/-- A settlement window holding a single participant whose net amount is
zero: it passes every validation check (in particular the amounts sum to
zero), yet `findIndex` finds no positive amount, `splice(-1)` turns the
lone participant into the debtor stack, the loop never runs, and the
'Failed to balance payments' branch throws. -/
def zeroLoneInput : SettlementInput :=
  ⟨[⟨1, [⟨101, ⟨⟨0, 0⟩, "USD"⟩⟩]⟩]⟩

/-- Participant 1 holds two accounts AND its id is duplicated by the
second position: the source checks duplicates (line 69) long before the
one-account check (line 102). -/
def multiAcctDupInput : SettlementInput :=
  ⟨[⟨1, [⟨101, ⟨⟨10, 0⟩, "USD"⟩⟩, ⟨102, ⟨⟨-10, 0⟩, "USD"⟩⟩]⟩,
    ⟨1, [⟨103, ⟨⟨-10, 0⟩, "USD"⟩⟩]⟩]⟩

/-- A window whose only flaw is a participant with two accounts. -/
def multiAcctOnlyInput : SettlementInput :=
  ⟨[⟨1, [⟨101, ⟨⟨0, 0⟩, "USD"⟩⟩, ⟨102, ⟨⟨0, 0⟩, "USD"⟩⟩]⟩]⟩

/-- Scenario S4 of the spec: creditors −3 (id 1) and −7 (id 2), debtor
10 (id 3). -/
def s4Input : SettlementInput :=
  ⟨[⟨1, [⟨101, ⟨⟨-3, 0⟩, "USD"⟩⟩]⟩, ⟨2, [⟨102, ⟨⟨-7, 0⟩, "USD"⟩⟩]⟩,
    ⟨3, [⟨103, ⟨⟨10, 0⟩, "USD"⟩⟩]⟩]⟩

/-- The creditors in the order the netting loop settles them:
`settleAll` consumes its first argument head first, and is called on the
reversed creditor queue (the source pops the queue from its tail). -/
def processedCreditors (reg : String → Option ℕ) (input : SettlementInput) :
    List NetPos :=
  match validate reg input with
  | .error _ => []
  | .ok (ps, _) => (splitPositions ps).1.reverse

/-- C4 counterexample: on S1 the returned matrix is NOT
`{1: {2: "10.00"}}` — big.js renders the amount without its trailing
zeros. -/
theorem c4_matrix_s1_not_ten_point_zero_zero :
    resultMatrix (minPaymentsAlgorithm currencies s1Input) ≠
      some [(1, [(2, "10.00")])] := by decide

/-- C4 amended: on S1 the engine returns currency USD and exactly the
matrix `{1: {2: "10"}}` (the amount `10` in big.js canonical string
form). -/
theorem c4_matrix_s1 :
    resultMatrix (minPaymentsAlgorithm currencies s1Input) =
        some [(1, [(2, "10")])] ∧
      (minPaymentsAlgorithm currencies s1Input).toOption.map (·.currency) =
        some "USD" := by decide

/-- C2 counterexample: a window with a single zero-amount participant
passes the whole validation block, yet the engine throws
'Failed to balance payments'. -/
theorem c2_failedToBalance_reachable :
    (validate currencies zeroLoneInput).isOk = true ∧
      minPaymentsAlgorithm currencies zeroLoneInput =
        .error .failedToBalance := by decide

/-- C3 counterexample: this input has a participant with more than one
account and a duplicated participant id, and the reported failure is
`duplicateParticipant`, not `multipleAccounts` — the one-account check
is the LAST validation step of the source, not the second. -/
theorem c3_multiple_accounts_not_first :
    (∃ p ∈ multiAcctDupInput.participants, 1 < p.accounts.length) ∧
      minPaymentsAlgorithm currencies multiAcctDupInput =
        .error .duplicateParticipant := by decide

/-- C6 counterexample: on S4 the first creditor settled is participant 1
with amount −3 while the unpaid participant 2 holds the more negative
−7; the processing order is not ascending in amount, so the loop does
not take the most-negative unpaid creditor first. -/
theorem c6_not_most_negative_first :
    (processedCreditors currencies s4Input).map
        (fun p => (p.id, p.amount.toString)) = [(1, "-3"), (2, "-7")] ∧
      ¬ List.Sorted (fun a b : NetPos => Big.le a.amount b.amount)
          (processedCreditors currencies s4Input) := by decide

instance : IsTotal NetPos posLe :=
  ⟨fun a b => by
    unfold posLe
    rw [Big.le_iff, Big.le_iff]
    exact le_total _ _⟩

instance : IsTrans NetPos posLe :=
  ⟨fun a b c hab hbc => by
    unfold posLe at *
    rw [Big.le_iff] at *
    exact le_trans hab hbc⟩

theorem sortPositions_sorted (ms : List NetPos) :
    List.Sorted posLe (sortPositions ms) :=
  List.sorted_insertionSort posLe ms

theorem sortPositions_perm (ms : List NetPos) :
    (sortPositions ms).Perm ms :=
  List.perm_insertionSort posLe ms

theorem validate_ok_inv {reg : String → Option ℕ} {input : SettlementInput}
    {ps : List NetPos} {dp : ℕ} (h : validate reg input = .ok (ps, dp)) :
    ∃ ms, mapPositions input.participants = .ok ms ∧ ps = sortPositions ms ∧
      input.participants.length ≠ 0 ∧ (ps.map (·.id)).Nodup ∧
      (∀ p ∈ ps, p.cur = firstCur ps) ∧ reg (firstCur ps) = some dp ∧
      (∀ p ∈ ps, Big.eqv (Big.round p.amount dp) p.amount) ∧
      Big.eqv (sumAmounts ps) Big.zero ∧
      ∀ p ∈ input.participants, p.accounts.length ≤ 1 := by
  unfold validate at h
  cases hm : mapPositions input.participants with
  | error e => rw [hm] at h; cases h
  | ok ms =>
    rw [hm] at h
    simp only at h
    refine ⟨ms, rfl, ?_⟩
    repeat' split at h
    any_goals cases h
    refine ⟨rfl, ?_, ?_, ?_, ?_, ?_, ?_, ?_⟩ <;>
      first
        | assumption
        | (simp only [not_not] at *; assumption)

theorem mapPositionsError : ∀ {l : List Participant} {e : AlgoError},
    mapPositions l = .error e → e = .typeError := by
  intro l
  induction l with
  | nil => intro e h; cases h
  | cons p ps ih =>
    intro e h
    unfold mapPositions at h
    split at h
    · injection h with h1; exact h1.symm
    · split at h
      · rename_i heq
        injection h with h1
        exact h1 ▸ ih heq
      · cases h

theorem validate_multipleAccounts_inv {reg : String → Option ℕ}
    {input : SettlementInput}
    (h : validate reg input = .error .multipleAccounts) :
    ∃ ms, mapPositions input.participants = .ok ms ∧
      input.participants.length ≠ 0 ∧
      ((sortPositions ms).map (·.id)).Nodup ∧
      (∀ p ∈ sortPositions ms, p.cur = firstCur (sortPositions ms)) ∧
      (∃ dp, reg (firstCur (sortPositions ms)) = some dp ∧
        ∀ p ∈ sortPositions ms, Big.eqv (Big.round p.amount dp) p.amount) ∧
      Big.eqv (sumAmounts (sortPositions ms)) Big.zero ∧
      ¬ ∀ p ∈ input.participants, p.accounts.length ≤ 1 := by
  unfold validate at h
  cases hm : mapPositions input.participants with
  | error e =>
    rw [hm] at h
    simp only [Except.error.injEq] at h
    have ht := mapPositionsError hm
    rw [h] at ht
    cases ht
  | ok ms =>
    rw [hm] at h
    simp only at h
    refine ⟨ms, rfl, ?_⟩
    repeat' split at h
    all_goals simp at h
    simp only [not_not] at *
    rename_i dp0 heq0 hacc0 hnd0 hcur0 hrnd0 hsum0
    exact ⟨by assumption, hnd0, hcur0, ⟨dp0, heq0, hrnd0⟩, hsum0, hacc0⟩

theorem settleAll_error : ∀ {cs ds : List NetPos} {e : AlgoError},
    settleAll cs ds = .error e → e = .typeError := by
  intro cs
  induction cs with
  | nil => intro ds e h; cases h
  | cons c cs ih =>
    intro ds e h
    unfold settleAll at h
    simp only at h
    split at h
    · split at h
      · injection h with h1; exact h1.symm
      · split at h
        · rename_i heq
          injection h with h1
          exact h1 ▸ ih heq
        · cases h
    · split at h
      · rename_i heq
        injection h with h1
        exact h1 ▸ ih heq
      · cases h

theorem c6_creditor_order (reg : String → Option ℕ) (input : SettlementInput) :
    List.Sorted (fun a b : NetPos => Big.le b.amount a.amount)
      (processedCreditors reg input) := by
  unfold processedCreditors
  cases hv : validate reg input with
  | error e => exact List.sorted_nil
  | ok x =>
    obtain ⟨ps, dp⟩ := x
    show List.Sorted (fun a b : NetPos => Big.le b.amount a.amount)
      ((splitPositions ps).1.reverse)
    obtain ⟨ms, _, hps, _⟩ := validate_ok_inv hv
    have hsorted : List.Sorted posLe ps := hps ▸ sortPositions_sorted ms
    have htake : ∃ n, (splitPositions ps).1 = ps.take n := by
      unfold splitPositions
      cases jsFindIndex (fun p => Big.lt Big.zero p.amount) ps with
      | none => exact ⟨ps.length - 1, rfl⟩
      | some i => exact ⟨i, rfl⟩
    obtain ⟨n, hn⟩ := htake
    rw [hn, List.Sorted, List.pairwise_reverse]
    exact (List.Pairwise.sublist (List.take_sublist n ps) hsorted).imp fun h => h

theorem minPayments_multipleAccounts_validate {reg : String → Option ℕ}
    {input : SettlementInput}
    (h : minPaymentsAlgorithm reg input = .error .multipleAccounts) :
    validate reg input = .error .multipleAccounts := by
  unfold minPaymentsAlgorithm at h
  cases hv : validate reg input with
  | error e => rw [hv] at h; injection h with h1; rw [h1]
  | ok x =>
    rw [hv] at h
    simp only at h
    split at h
    · rename_i heq
      injection h with h1
      have h2 := settleAll_error heq
      rw [h2] at h1
      cases h1
    · split at h
      · injection h with h1; cases h1
      · cases h

theorem c3_one_account_check_runs_last {reg : String → Option ℕ}
    {input : SettlementInput}
    (h : minPaymentsAlgorithm reg input = .error .multipleAccounts) :
    ∃ ms, mapPositions input.participants = .ok ms ∧
      input.participants.length ≠ 0 ∧
      ((sortPositions ms).map (·.id)).Nodup ∧
      (∀ p ∈ sortPositions ms, p.cur = firstCur (sortPositions ms)) ∧
      (∃ dp, reg (firstCur (sortPositions ms)) = some dp ∧
        ∀ p ∈ sortPositions ms, Big.eqv (Big.round p.amount dp) p.amount) ∧
      Big.eqv (sumAmounts (sortPositions ms)) Big.zero ∧
      ¬ ∀ p ∈ input.participants, p.accounts.length ≤ 1 :=
  validate_multipleAccounts_inv (minPayments_multipleAccounts_validate h)

theorem c3_witness_check :
    minPaymentsAlgorithm currencies multiAcctOnlyInput =
        .error .multipleAccounts ∧
      ∃ ms, mapPositions multiAcctOnlyInput.participants = .ok ms ∧
        multiAcctOnlyInput.participants.length ≠ 0 ∧
        ((sortPositions ms).map (·.id)).Nodup ∧
        (∀ p ∈ sortPositions ms, p.cur = firstCur (sortPositions ms)) ∧
        (∃ dp, currencies (firstCur (sortPositions ms)) = some dp ∧
          ∀ p ∈ sortPositions ms, Big.eqv (Big.round p.amount dp) p.amount) ∧
        Big.eqv (sumAmounts (sortPositions ms)) Big.zero ∧
        ¬ ∀ p ∈ multiAcctOnlyInput.participants, p.accounts.length ≤ 1 :=
  ⟨by decide, c3_one_account_check_runs_last (by decide)⟩

/-- Value of the payments in `es` paid BY participant `i`. -/
def payerSum (es : List Payment) (i : ℕ) : ℚ :=
  ((es.filter (fun e => e.payer = i)).map (·.amount.val)).sum

/-- Value of the payments in `es` paid TO participant `i`. -/
def payeeSum (es : List Payment) (i : ℕ) : ℚ :=
  ((es.filter (fun e => e.payee = i)).map (·.amount.val)).sum

/-- Value of the positions in `l` carrying id `i`. -/
def posAmount (l : List NetPos) (i : ℕ) : ℚ :=
  ((l.filter (fun p => p.id = i)).map (·.amount.val)).sum

/-- Total value of the positions in `l`. -/
def totalVal (l : List NetPos) : ℚ := (l.map (·.amount.val)).sum

theorem payerSum_append (es1 es2 : List Payment) (i : ℕ) :
    payerSum (es1 ++ es2) i = payerSum es1 i + payerSum es2 i := by
  simp [payerSum, List.filter_append]

theorem payeeSum_append (es1 es2 : List Payment) (i : ℕ) :
    payeeSum (es1 ++ es2) i = payeeSum es1 i + payeeSum es2 i := by
  simp [payeeSum, List.filter_append]

theorem payerSum_cons (e : Payment) (es : List Payment) (i : ℕ) :
    payerSum (e :: es) i =
      (if e.payer = i then e.amount.val else 0) + payerSum es i := by
  by_cases h : e.payer = i <;> simp [payerSum, List.filter_cons, h]

theorem payeeSum_cons (e : Payment) (es : List Payment) (i : ℕ) :
    payeeSum (e :: es) i =
      (if e.payee = i then e.amount.val else 0) + payeeSum es i := by
  by_cases h : e.payee = i <;> simp [payeeSum, List.filter_cons, h]

theorem payerSum_nil (i : ℕ) : payerSum [] i = 0 := rfl

theorem payeeSum_nil (i : ℕ) : payeeSum [] i = 0 := rfl

theorem posAmount_append (l1 l2 : List NetPos) (i : ℕ) :
    posAmount (l1 ++ l2) i = posAmount l1 i + posAmount l2 i := by
  simp [posAmount, List.filter_append]

theorem posAmount_cons (d : NetPos) (l : List NetPos) (i : ℕ) :
    posAmount (d :: l) i =
      (if d.id = i then d.amount.val else 0) + posAmount l i := by
  by_cases h : d.id = i <;> simp [posAmount, List.filter_cons, h]

theorem posAmount_nil (i : ℕ) : posAmount [] i = 0 := rfl

theorem posAmount_perm {l1 l2 : List NetPos} (h : l1.Perm l2) (i : ℕ) :
    posAmount l1 i = posAmount l2 i :=
  List.Perm.sum_eq (List.Perm.map _ (List.Perm.filter _ h))

theorem totalVal_cons (d : NetPos) (l : List NetPos) :
    totalVal (d :: l) = d.amount.val + totalVal l := by
  simp [totalVal]

theorem payerSum_mapped (pre : List NetPos) (cid : ℕ) (i : ℕ) :
    payerSum (pre.map fun d => ⟨d.id, cid, d.amount⟩) i = posAmount pre i := by
  induction pre with
  | nil => rfl
  | cons d pre ih =>
    simp only [List.map_cons, payerSum_cons, posAmount_cons, ih]

theorem payeeSum_mapped (pre : List NetPos) (cid : ℕ) (i : ℕ) :
    payeeSum (pre.map fun d => ⟨d.id, cid, d.amount⟩) i =
      if cid = i then totalVal pre else 0 := by
  induction pre with
  | nil => simp [payeeSum_nil, totalVal]
  | cons d pre ih =>
    simp only [List.map_cons, payeeSum_cons, ih, totalVal_cons]
    by_cases h : cid = i <;> simp [h]

/-- Master decomposition of the inner loop: the debtors it consumes are
a prefix `pre` of the stack, the payments it records are exactly one
payment per consumed debtor for that debtor's full amount, and the
creditor's running amount grows by the consumed total. -/
theorem payCreditor_eq (cid : ℕ) (camt : Big) (ds : List NetPos) :
    ∃ pre, ds = pre ++ (payCreditor cid camt ds).1 ∧
      (payCreditor cid camt ds).2.2 = pre.map (fun d => ⟨d.id, cid, d.amount⟩) ∧
      (payCreditor cid camt ds).2.1.val = camt.val + totalVal pre := by
  induction ds generalizing camt with
  | nil => exact ⟨[], rfl, rfl, by simp [payCreditor, totalVal]⟩
  | cons d ds ih =>
    unfold payCreditor
    split
    · obtain ⟨pre, h1, h2, h3⟩ := ih (Big.add camt d.amount)
      refine ⟨d :: pre, by simpa using h1, by simpa using h2, ?_⟩
      simp only [totalVal_cons]
      rw [h3, Big.val_add]
      ring
    · exact ⟨[], rfl, rfl, by simp [totalVal]⟩

/-- Reduction of the inner loop when the pop condition holds. -/
theorem payCreditor_cons_pos {camt : Big} {d : NetPos} (cid : ℕ)
    (ds : List NetPos) (h : Big.le (Big.add camt d.amount) Big.zero) :
    payCreditor cid camt (d :: ds) =
      ((payCreditor cid (Big.add camt d.amount) ds).1,
       (payCreditor cid (Big.add camt d.amount) ds).2.1,
       ⟨d.id, cid, d.amount⟩ :: (payCreditor cid (Big.add camt d.amount) ds).2.2) := by
  simp [payCreditor, h]

/-- Reduction of the inner loop when the pop condition fails. -/
theorem payCreditor_cons_neg {camt : Big} {d : NetPos} (cid : ℕ)
    (ds : List NetPos) (h : ¬ Big.le (Big.add camt d.amount) Big.zero) :
    payCreditor cid camt (d :: ds) = (d :: ds, camt, []) := by
  simp [payCreditor, h]

/-- The inner loop keeps a non-positive creditor amount non-positive
(it only pops a debtor when the result stays `≤ 0`). -/
theorem payCreditor_nonpos (cid : ℕ) (camt : Big) (ds : List NetPos)
    (h : camt.val ≤ 0) : (payCreditor cid camt ds).2.1.val ≤ 0 := by
  induction ds generalizing camt with
  | nil => exact h
  | cons d ds ih =>
    by_cases hc : Big.le (Big.add camt d.amount) Big.zero
    · rw [payCreditor_cons_pos cid ds hc]
      refine ih (Big.add camt d.amount) ?_
      rw [Big.le_iff, Big.val_add, Big.val_zero] at hc
      rwa [Big.val_add]
    · rw [payCreditor_cons_neg cid ds hc]
      exact h

/-- When the inner loop leaves a debtor on the stack, its exit condition
says the creditor's remaining amount plus that debtor's amount is
strictly positive. -/
theorem payCreditor_exit (cid : ℕ) (camt : Big) (ds : List NetPos)
    {d : NetPos} {ds2 : List NetPos}
    (h : (payCreditor cid camt ds).1 = d :: ds2) :
    0 < (payCreditor cid camt ds).2.1.val + d.amount.val := by
  induction ds generalizing camt with
  | nil => cases h
  | cons d0 ds ih =>
    by_cases hc : Big.le (Big.add camt d0.amount) Big.zero
    · rw [payCreditor_cons_pos cid ds hc] at h ⊢
      exact ih (Big.add camt d0.amount) h
    · rw [payCreditor_cons_neg cid ds hc] at h ⊢
      obtain ⟨rfl, -⟩ : d0 = d ∧ ds = ds2 := by
        injection h with h1 h2; exact ⟨h1, h2⟩
      rw [Big.le_iff, Big.val_add, Big.val_zero, not_le] at hc
      linarith

/-- Debtor-side bookkeeping of the outer loop: for every id, the value
paid by that id plus the value still on the debtor stack equals the
value the id brought onto the stack. -/
theorem settleAll_payer : ∀ {cs ds : List NetPos} {es : List Payment}
    {dr : List NetPos}, settleAll cs ds = .ok (es, dr) →
    ∀ i, payerSum es i + posAmount dr i = posAmount ds i := by
  intro cs
  induction cs with
  | nil =>
    intro ds es dr h i
    cases h
    simp [payerSum_nil]
  | cons c cs ih =>
    intro ds es dr h i
    unfold settleAll at h
    simp only at h
    set q := payCreditor c.id c.amount ds with hq
    obtain ⟨pre, hpre, hes1, hval⟩ := payCreditor_eq c.id c.amount ds
    rw [← hq] at hpre hes1 hval
    split at h
    · split at h
      · cases h
      · rename_i d ds2 heq1
        split at h
        · cases h
        · rename_i es2 dr2 heq2
          cases h
          have hih := ih heq2 i
          rw [posAmount_cons] at hih
          have h1 : payerSum (q.2.2 ++ ⟨d.id, c.id, Big.timesNeg1 q.2.1⟩ :: es2) i =
              posAmount pre i + ((if d.id = i then -(q.2.1.val) else 0) + payerSum es2 i) := by
            rw [payerSum_append, payerSum_cons, hes1, payerSum_mapped, Big.val_timesNeg1]
          have h2 : posAmount ds i =
              posAmount pre i + ((if d.id = i then d.amount.val else 0) + posAmount ds2 i) := by
            conv_lhs => rw [hpre, heq1]
            rw [posAmount_append, posAmount_cons]
          rw [h1, h2]
          simp only [Big.val_add] at hih
          by_cases hd : d.id = i
          · simp only [if_pos hd] at hih ⊢
            linarith
          · simp only [if_neg hd] at hih ⊢
            linarith
    · split at h
      · cases h
      · rename_i es2 dr2 heq2
        cases h
        have hih := ih heq2 i
        have h2 : posAmount ds i = posAmount pre i + posAmount q.1 i := by
          conv_lhs => rw [hpre]
          rw [posAmount_append]
        rw [payerSum_append, hes1, payerSum_mapped, h2]
        linarith

/-- Creditor-side bookkeeping of the outer loop: when every creditor is
non-positive and every debtor non-negative, every processed creditor is
paid exactly its (negated) amount. -/
theorem settleAll_payee : ∀ {cs ds : List NetPos} {es : List Payment}
    {dr : List NetPos}, settleAll cs ds = .ok (es, dr) →
    (∀ c ∈ cs, c.amount.val ≤ 0) → (∀ d ∈ ds, 0 ≤ d.amount.val) →
    ∀ i, payeeSum es i = -(posAmount cs i) := by
  intro cs
  induction cs with
  | nil =>
    intro ds es dr h hcs hds i
    cases h
    simp [payeeSum_nil, posAmount_nil]
  | cons c cs ih =>
    intro ds es dr h hcs hds i
    unfold settleAll at h
    simp only at h
    set q := payCreditor c.id c.amount ds with hq
    obtain ⟨pre, hpre, hes1, hval⟩ := payCreditor_eq c.id c.amount ds
    rw [← hq] at hpre hes1 hval
    have hpre_ds : ∀ x ∈ pre, 0 ≤ x.amount.val := by
      intro x hx
      exact hds x (hpre ▸ List.mem_append_left _ hx)
    have hrest_ds : ∀ x ∈ q.1, 0 ≤ x.amount.val := by
      intro x hx
      exact hds x (hpre ▸ List.mem_append_right _ hx)
    have hc0 : c.amount.val ≤ 0 := hcs c (List.mem_cons_self c cs)
    have hcs' : ∀ x ∈ cs, x.amount.val ≤ 0 := fun x hx =>
      hcs x (List.mem_cons_of_mem c hx)
    have hnonpos : q.2.1.val ≤ 0 := payCreditor_nonpos c.id c.amount ds hc0
    split at h
    · rename_i hlt
      rw [Big.lt_iff, Big.val_zero] at hlt
      split at h
      · cases h
      · rename_i d ds2 heq1
        split at h
        · cases h
        · rename_i es2 dr2 heq2
          cases h
          have hih := ih heq2 hcs' ?_ i
          · have h1 : payeeSum (q.2.2 ++ ⟨d.id, c.id, Big.timesNeg1 q.2.1⟩ :: es2) i =
                (if c.id = i then totalVal pre else 0) +
                  ((if c.id = i then -(q.2.1.val) else 0) + payeeSum es2 i) := by
              rw [payeeSum_append, payeeSum_cons, hes1, payeeSum_mapped, Big.val_timesNeg1]
            rw [h1, hih, posAmount_cons]
            by_cases hcid : c.id = i
            · simp only [if_pos hcid]
              linarith
            · simp only [if_neg hcid]
              linarith
          · intro x hx
            rcases List.mem_cons.mp hx with rfl | hx2
            · have hexit := payCreditor_exit c.id c.amount ds heq1
              rw [← hq] at hexit
              simp only [Big.val_add]
              linarith
            · exact hrest_ds x (heq1 ▸ List.mem_cons_of_mem d hx2)
    · rename_i hnlt
      rw [Big.lt_iff, Big.val_zero, not_lt] at hnlt
      have hzero : q.2.1.val = 0 := le_antisymm hnonpos hnlt
      split at h
      · cases h
      · rename_i es2 dr2 heq2
        cases h
        have hih := ih heq2 hcs' hrest_ds i
        have htot : totalVal pre = -c.amount.val := by
          rw [hzero] at hval
          linarith
        rw [payeeSum_append, hes1, payeeSum_mapped, posAmount_cons, hih]
        by_cases hcid : c.id = i
        · simp only [if_pos hcid]
          linarith
        · simp only [if_neg hcid]
          linarith

theorem mapPositions_mem : ∀ {l : List Participant} {ms : List NetPos},
    mapPositions l = .ok ms → ∀ p ∈ l, ∀ m ∈ toNetPos p, m ∈ ms := by
  intro l
  induction l with
  | nil => intro ms h p hp; cases hp
  | cons p0 l ih =>
    intro ms h p hp m hm
    unfold mapPositions at h
    split at h
    · cases h
    · rename_i m0 heq0
      split at h
      · cases h
      · rename_i ms0 heq1
        cases h
        rcases List.mem_cons.mp hp with rfl | hp2
        · rw [heq0] at hm
          have hm2 : m0 = m := by simpa using hm
          exact hm2 ▸ List.mem_cons_self _ _
        · exact List.mem_cons_of_mem _ (ih heq1 p hp2 m hm)

theorem foldl_add_val : ∀ (l : List NetPos) (acc : Big),
    (l.foldl (fun a p => Big.add a p.amount) acc).val = acc.val + totalVal l := by
  intro l
  induction l with
  | nil => intro acc; simp [totalVal]
  | cons p l ih =>
    intro acc
    rw [List.foldl_cons, ih, Big.val_add, totalVal_cons]
    ring

theorem sumAmounts_val (ps : List NetPos) : (sumAmounts ps).val = totalVal ps := by
  rw [sumAmounts, foldl_add_val, Big.val_zero, zero_add]

theorem posAmount_eq_zero {l : List NetPos} {i : ℕ}
    (h : ∀ x ∈ l, x.id ≠ i) : posAmount l i = 0 := by
  have : l.filter (fun p => p.id = i) = [] :=
    List.filter_eq_nil_iff.mpr fun a ha => by simpa using h a ha
  rw [posAmount, this]
  rfl

theorem posAmount_single {l : List NetPos} {m : NetPos}
    (hnd : (l.map (·.id)).Nodup) (hm : m ∈ l) :
    posAmount l m.id = m.amount.val := by
  induction l with
  | nil => cases hm
  | cons a l ih =>
    rw [List.map_cons, List.nodup_cons] at hnd
    rcases List.mem_cons.mp hm with rfl | hm2
    · rw [posAmount_cons, if_pos rfl, posAmount_eq_zero, add_zero]
      intro x hx hxi
      exact hnd.1 (hxi ▸ List.mem_map_of_mem (·.id) hx)
    · rw [posAmount_cons, if_neg, ih hnd.2 hm2, zero_add]
      intro hai
      exact hnd.1 (hai ▸ List.mem_map_of_mem (·.id) hm2)

theorem eq_of_mem_nodup_id {l : List NetPos}
    (hnd : (l.map (·.id)).Nodup) {x y : NetPos} (hx : x ∈ l) (hy : y ∈ l)
    (hxy : x.id = y.id) : x = y :=
  List.inj_on_of_nodup_map hnd hx hy hxy

theorem posAmount_take_drop (l : List NetPos) (n : ℕ) (i : ℕ) :
    posAmount l i = posAmount (l.take n) i + posAmount (l.drop n) i := by
  conv_lhs => rw [← List.take_append_drop n l]
  rw [posAmount_append]

theorem jsFindIndex_none {p : α → Prop} [DecidablePred p] :
    ∀ {l : List α}, jsFindIndex p l = none → ∀ x ∈ l, ¬ p x := by
  intro l
  induction l with
  | nil => intro h x hx; cases hx
  | cons a l ih =>
    intro h x hx
    unfold jsFindIndex at h
    split at h
    · cases h
    · rename_i hna
      rcases List.mem_cons.mp hx with rfl | hx2
      · exact hna
      · exact ih (by cases hj : jsFindIndex p l <;> simp [hj] at h ⊢) x hx2

theorem jsFindIndex_take {p : α → Prop} [DecidablePred p] :
    ∀ {l : List α} {i : ℕ}, jsFindIndex p l = some i →
      ∀ x ∈ l.take i, ¬ p x := by
  intro l
  induction l with
  | nil => intro i h x hx; exact absurd h (by simp [jsFindIndex])
  | cons a l ih =>
    intro i h x hx
    unfold jsFindIndex at h
    split at h
    · injection h with h1
      rw [← h1] at hx
      cases hx
    · rename_i hna
      cases hj : jsFindIndex p l with
      | none => rw [hj] at h; cases h
      | some j =>
        rw [hj] at h
        injection h with h1
        rw [← h1] at hx
        rcases List.mem_cons.mp (by simpa using hx) with rfl | hx2
        · exact hna
        · exact ih hj x hx2

theorem jsFindIndex_drop_pos :
    ∀ {l : List NetPos} {i : ℕ}, List.Sorted posLe l →
      jsFindIndex (fun p => Big.lt Big.zero p.amount) l = some i →
      ∀ x ∈ l.drop i, 0 < x.amount.val := by
  intro l
  induction l with
  | nil => intro i hs h x hx; cases h
  | cons a l ih =>
    intro i hs h x hx
    unfold jsFindIndex at h
    split at h
    · rename_i ha
      rw [Big.lt_iff, Big.val_zero] at ha
      injection h with h1
      rw [← h1, List.drop_zero] at hx
      rcases List.mem_cons.mp hx with rfl | hx2
      · exact ha
      · have := List.rel_of_sorted_cons hs x hx2
        rw [posLe, Big.le_iff] at this
        linarith
    · cases hj : jsFindIndex (fun p => Big.lt Big.zero p.amount) l with
      | none => rw [hj] at h; cases h
      | some j =>
        rw [hj] at h
        injection h with h1
        rw [← h1] at hx
        exact ih hs.of_cons hj x (by simpa using hx)

theorem totalVal_nonpos : ∀ {l : List NetPos},
    (∀ x ∈ l, x.amount.val ≤ 0) → totalVal l ≤ 0 := by
  intro l
  induction l with
  | nil => intro h; simp [totalVal]
  | cons b l ihl =>
    intro h
    rw [totalVal_cons]
    have hb := h b (List.mem_cons_self b l)
    have := ihl fun x hx => h x (List.mem_cons_of_mem b hx)
    linarith

theorem all_zero_of_nonpos_sum_zero :
    ∀ {l : List NetPos}, (∀ x ∈ l, x.amount.val ≤ 0) → totalVal l = 0 →
      ∀ x ∈ l, x.amount.val = 0 := by
  intro l
  induction l with
  | nil => intro h hz x hx; cases hx
  | cons a l ih =>
    intro h hz x hx
    rw [totalVal_cons] at hz
    have hrest : totalVal l ≤ 0 :=
      totalVal_nonpos fun x hx => h x (List.mem_cons_of_mem a hx)
    have ha := h a (List.mem_cons_self a l)
    have haz : a.amount.val = 0 := by linarith
    rcases List.mem_cons.mp hx with rfl | hx2
    · exact haz
    · exact ih (fun x hx => h x (List.mem_cons_of_mem a hx)) (by linarith) x hx2

theorem splitPositions_append (ps : List NetPos) :
    (splitPositions ps).1 ++ (splitPositions ps).2 = ps := by
  unfold splitPositions
  cases jsFindIndex (fun p => Big.lt Big.zero p.amount) ps <;>
    simp [List.take_append_drop]

/-- Sign split of `splitPositions` on a sorted zero-sum list: the
creditor queue is non-positive, the debtor stack non-negative, and the
debtors are either all strictly positive (a positive amount exists) or
the whole window is zero (the `splice(-1)` fallback). -/
theorem splitPositions_signs {ps : List NetPos} (hsort : List.Sorted posLe ps)
    (htot : totalVal ps = 0) :
    (∀ x ∈ (splitPositions ps).1, x.amount.val ≤ 0) ∧
      (∀ x ∈ (splitPositions ps).2, 0 ≤ x.amount.val) ∧
      ((∀ x ∈ (splitPositions ps).2, 0 < x.amount.val) ∨
        ∀ x ∈ ps, x.amount.val = 0) := by
  unfold splitPositions
  cases hfi : jsFindIndex (fun q => Big.lt Big.zero q.amount) ps with
  | some i =>
    simp only
    have h1 := jsFindIndex_take hfi
    have h2 := jsFindIndex_drop_pos hsort hfi
    refine ⟨fun x hx => ?_, fun x hx => le_of_lt (h2 x hx), Or.inl h2⟩
    have := h1 x hx
    rw [Big.lt_iff, Big.val_zero, not_lt] at this
    exact this
  | none =>
    simp only
    have h1 := jsFindIndex_none hfi
    have hle : ∀ x ∈ ps, x.amount.val ≤ 0 := by
      intro x hx
      have := h1 x hx
      rw [Big.lt_iff, Big.val_zero, not_lt] at this
      exact this
    have hz := all_zero_of_nonpos_sum_zero hle htot
    refine ⟨fun x hx => hle x ((List.take_sublist _ _).subset hx),
      fun x hx => ge_of_eq (hz x ((List.drop_sublist _ _).subset hx)), Or.inr hz⟩

/-- Inversion of a successful engine run: validation succeeded, the
netting loop succeeded, and the debtor stack came back empty. -/
theorem minPayments_ok_inv {reg : String → Option ℕ} {input : SettlementInput}
    {res : MinPayResult} (h : minPaymentsAlgorithm reg input = .ok res) :
    ∃ ps dp es, validate reg input = .ok (ps, dp) ∧
      settleAll (splitPositions ps).1.reverse (splitPositions ps).2.reverse =
        .ok (es, []) ∧ res.entries = es ∧
      res.matrix = renderMatrix
        (matrixRows ((splitPositions ps).2.map (·.id)) es) := by
  unfold minPaymentsAlgorithm at h
  cases hv : validate reg input with
  | error e => rw [hv] at h; cases h
  | ok x =>
    obtain ⟨ps, dp⟩ := x
    rw [hv] at h
    simp only at h
    split at h
    · cases h
    · rename_i es dr heq
      split at h
      · cases h
      · rename_i hdr
        cases h
        have hdr0 : dr = [] := List.length_eq_zero.mp (not_not.mp hdr)
        exact ⟨ps, dp, es, rfl, hdr0 ▸ heq, rfl, rfl⟩

/-- The matrix cell a recorded assignment writes: `(payer, payee)`. -/
def cellKey (e : Payment) : ℕ × ℕ := (e.payer, e.payee)

/-- Value of the payments in `es` from payer `p` to payee `c`. -/
def pcSum (es : List Payment) (p c : ℕ) : ℚ :=
  ((es.filter (fun e => e.payer = p ∧ e.payee = c)).map (·.amount.val)).sum

/-- Sum of the values of the cells of row `p` of the matrix. -/
def rowSumVal (rows : List (ℕ × List (ℕ × Big))) (p : ℕ) : ℚ :=
  ((rows.filter (fun r => r.1 = p)).map
    (fun r => (r.2.map (fun cell => cell.2.val)).sum)).sum

/-- Sum of the values of all matrix cells lying in column `c` (the
payments whose payee is `c`), across every row. -/
def colSumVal (rows : List (ℕ × List (ℕ × Big))) (c : ℕ) : ℚ :=
  (rows.map (fun r =>
    ((r.2.filter (fun cell => cell.1 = c)).map (fun cell => cell.2.val)).sum)).sum

theorem pcSum_cons (a : Payment) (es : List Payment) (p c : ℕ) :
    pcSum (a :: es) p c =
      (if a.payer = p ∧ a.payee = c then a.amount.val else 0) + pcSum es p c := by
  by_cases h : a.payer = p ∧ a.payee = c <;> simp [pcSum, List.filter_cons, h]

/-- The netting loop never writes the same matrix cell twice: when both
worklists carry distinct ids, the recorded key pairs are distinct, every
payee is a creditor id and every payer a debtor id. -/
theorem settleAll_keys : ∀ {cs ds : List NetPos} {es : List Payment}
    {dr : List NetPos}, settleAll cs ds = .ok (es, dr) →
    (cs.map (·.id)).Nodup → (ds.map (·.id)).Nodup →
    (es.map cellKey).Nodup ∧ (∀ e ∈ es, e.payee ∈ cs.map (·.id)) ∧
      ∀ e ∈ es, e.payer ∈ ds.map (·.id) := by
  intro cs
  induction cs with
  | nil =>
    intro ds es dr h hcs hds
    cases h
    exact ⟨List.nodup_nil, fun e he => absurd he (List.not_mem_nil e),
      fun e he => absurd he (List.not_mem_nil e)⟩
  | cons c cs ih =>
    intro ds es dr h hcs hds
    unfold settleAll at h
    simp only at h
    set q := payCreditor c.id c.amount ds with hq
    obtain ⟨pre, hpre, hes1, -⟩ := payCreditor_eq c.id c.amount ds
    rw [← hq] at hpre hes1
    rw [List.map_cons, List.nodup_cons] at hcs
    split at h
    · split at h
      · cases h
      · rename_i d ds2 heq1
        split at h
        · cases h
        · rename_i es2 dr2 heq2
          cases h
          have hmap : ds.map (·.id) = pre.map (·.id) ++ d.id :: ds2.map (·.id) := by
            rw [hpre, heq1, List.map_append, List.map_cons]
          rw [hmap, List.nodup_append] at hds
          obtain ⟨hprend, hrestnd, hdisj⟩ := hds
          have hrecnd : ((NetPos.mk d.id d.acctId (Big.add d.amount q.2.1) d.cur
              :: ds2).map (·.id)).Nodup := by
            rw [List.map_cons]
            exact hrestnd
          obtain ⟨ihnd, ihpayee, ihpayer⟩ := ih heq2 hcs.2 hrecnd
          have h0 : q.2.2.map cellKey = pre.map (fun x => ((x.id : ℕ), c.id)) := by
            rw [hes1, List.map_map]
            exact List.map_congr_left fun x _ => rfl
          have h1 : pre.map (fun x => ((x.id : ℕ), c.id)) =
              (pre.map (·.id)).map (fun i => (i, c.id)) := by
            rw [List.map_map]
            exact List.map_congr_left fun x _ => rfl
          refine ⟨?_, ?_, ?_⟩
          · rw [List.map_append, List.map_cons, List.nodup_append]
            refine ⟨?_, ?_, ?_⟩
            · rw [h0, h1]
              exact List.Nodup.map (fun a b hab => congrArg Prod.fst hab) hprend
            · rw [List.nodup_cons]
              refine ⟨?_, ihnd⟩
              intro hmem
              obtain ⟨e, he, hke⟩ := List.mem_map.mp hmem
              have hpc : e.payee = c.id := congrArg Prod.snd hke
              exact hcs.1 (hpc ▸ ihpayee e he)
            · intro x hx hb
              rw [h0, h1] at hx
              obtain ⟨i, hi, rfl⟩ := List.mem_map.mp hx
              rcases List.mem_cons.mp hb with hb1 | hb2
              · have hfst : i = d.id := congrArg Prod.fst hb1
                exact hdisj (hfst ▸ hi) (List.mem_cons_self _ _)
              · obtain ⟨e, he, hke⟩ := List.mem_map.mp hb2
                have hpc : e.payee = c.id := congrArg Prod.snd hke
                exact hcs.1 (hpc ▸ ihpayee e he)
          · intro e he
            rw [List.map_cons]
            rcases List.mem_append.mp he with h2 | h3
            · rw [hes1] at h2
              obtain ⟨x, hx, rfl⟩ := List.mem_map.mp h2
              exact List.mem_cons_self _ _
            · rcases List.mem_cons.mp h3 with rfl | h4
              · exact List.mem_cons_self _ _
              · exact List.mem_cons_of_mem _ (ihpayee e h4)
          · intro e he
            have hdid : d.id ∈ ds.map (·.id) := by
              rw [hmap]
              exact List.mem_append_right _ (List.mem_cons_self _ _)
            rcases List.mem_append.mp he with h2 | h3
            · rw [hes1] at h2
              obtain ⟨x, hx, rfl⟩ := List.mem_map.mp h2
              rw [hmap]
              exact List.mem_append_left _ (List.mem_map_of_mem _ hx)
            · rcases List.mem_cons.mp h3 with rfl | h4
              · exact hdid
              · have h5 := ihpayer e h4
                rw [List.map_cons] at h5
                rcases List.mem_cons.mp h5 with h6 | h6
                · rw [h6]
                  exact hdid
                · rw [hmap]
                  exact List.mem_append_right _ (List.mem_cons_of_mem _ h6)
    · split at h
      · cases h
      · rename_i es2 dr2 heq2
        cases h
        rw [hpre, List.map_append, List.nodup_append] at hds
        obtain ⟨hprend, hq1nd, hdisj⟩ := hds
        obtain ⟨ihnd, ihpayee, ihpayer⟩ := ih heq2 hcs.2 hq1nd
        have h0 : q.2.2.map cellKey = pre.map (fun x => ((x.id : ℕ), c.id)) := by
          rw [hes1, List.map_map]
          exact List.map_congr_left fun x _ => rfl
        have h1 : pre.map (fun x => ((x.id : ℕ), c.id)) =
            (pre.map (·.id)).map (fun i => (i, c.id)) := by
          rw [List.map_map]
          exact List.map_congr_left fun x _ => rfl
        refine ⟨?_, ?_, ?_⟩
        · rw [List.map_append, List.nodup_append]
          refine ⟨?_, ihnd, ?_⟩
          · rw [h0, h1]
            exact List.Nodup.map (fun a b hab => congrArg Prod.fst hab) hprend
          · intro x hx hb
            rw [h0, h1] at hx
            obtain ⟨i, hi, rfl⟩ := List.mem_map.mp hx
            obtain ⟨e, he, hke⟩ := List.mem_map.mp hb
            have hpc : e.payee = c.id := congrArg Prod.snd hke
            exact hcs.1 (hpc ▸ ihpayee e he)
        · intro e he
          rw [List.map_cons]
          rcases List.mem_append.mp he with h2 | h3
          · rw [hes1] at h2
            obtain ⟨x, hx, rfl⟩ := List.mem_map.mp h2
            exact List.mem_cons_self _ _
          · exact List.mem_cons_of_mem _ (ihpayee e h3)
        · intro e he
          rw [hpre, List.map_append]
          rcases List.mem_append.mp he with h2 | h3
          · rw [hes1] at h2
            obtain ⟨x, hx, rfl⟩ := List.mem_map.mp h2
            exact List.mem_append_left _ (List.mem_map_of_mem _ hx)
          · exact List.mem_append_right _ (ihpayer e h3)

/-- Distinct key pairs with a constant payer give distinct payees. -/
theorem payee_nodup_aux : ∀ {l : List Payment} {p : ℕ},
    (∀ e ∈ l, e.payer = p) → (l.map cellKey).Nodup →
    (l.map (·.payee)).Nodup := by
  intro l
  induction l with
  | nil => intro p _ _; exact List.nodup_nil
  | cons a l ih =>
    intro p hall hnd
    rw [List.map_cons, List.nodup_cons] at hnd ⊢
    refine ⟨?_, ih (fun e he => hall e (List.mem_cons_of_mem a he)) hnd.2⟩
    intro hmem
    obtain ⟨x, hx, hxe⟩ := List.mem_map.mp hmem
    have hx1 : x.payer = p := hall x (List.mem_cons_of_mem a hx)
    have ha1 : a.payer = p := hall a (List.mem_cons_self a l)
    have hkey : cellKey x = cellKey a := by
      show (x.payer, x.payee) = (a.payer, a.payee)
      rw [hx1, ha1, hxe]
    exact hnd.1 (hkey ▸ List.mem_map_of_mem cellKey hx)

/-- A key pair is recorded only once: filtering the trace by a recorded
payment's own key yields exactly that payment. -/
theorem filter_cellKey_singleton : ∀ {es : List Payment},
    (es.map cellKey).Nodup → ∀ e ∈ es,
      es.filter (fun x => x.payer = e.payer ∧ x.payee = e.payee) = [e] := by
  intro es
  induction es with
  | nil => intro _ e he; cases he
  | cons a es ih =>
    intro hnd e he
    rw [List.map_cons, List.nodup_cons] at hnd
    rcases List.mem_cons.mp he with heq | he2
    · have hpos : (fun x => decide (x.payer = e.payer ∧ x.payee = e.payee)) a = true := by
        rw [heq]
        simp
      have hnil : es.filter (fun x => x.payer = e.payer ∧ x.payee = e.payee) = [] := by
        refine List.filter_eq_nil_iff.mpr fun x hx hdec => ?_
        have hx2 : x.payer = e.payer ∧ x.payee = e.payee := by simpa using hdec
        have hkey : cellKey x = cellKey a := by
          show (x.payer, x.payee) = (a.payer, a.payee)
          rw [hx2.1, hx2.2, heq]
        exact hnd.1 (hkey ▸ List.mem_map_of_mem cellKey hx)
      rw [List.filter_cons, if_pos hpos, hnil, heq]
    · have hna : ¬ ((fun x => decide (x.payer = e.payer ∧ x.payee = e.payee)) a = true) := by
        simp only [decide_eq_true_eq]
        rintro ⟨h1, h2⟩
        have hkey : cellKey e = cellKey a := by
          show (e.payer, e.payee) = (a.payer, a.payee)
          rw [h1, h2]
        exact hnd.1 (hkey ▸ List.mem_map_of_mem cellKey he2)
      rw [List.filter_cons, if_neg hna, ih hnd.2 e he2]

/-- Rebuilding cells from payees: when every payee looks up to its own
payment's cell, the `filterMap` is the plain map. -/
theorem filterMap_payee_map : ∀ (l : List Payment)
    (g : ℕ → Option (ℕ × Big)),
    (∀ e ∈ l, g e.payee = some (e.payee, e.amount)) →
    (l.map (·.payee)).filterMap g = l.map fun e => (e.payee, e.amount) := by
  intro l g
  induction l with
  | nil => intro _; rfl
  | cons a l ih =>
    intro hall
    rw [List.map_cons, List.filterMap_cons_some (hall a (List.mem_cons_self a l)),
      ih (fun e he => hall e (List.mem_cons_of_mem a he)), List.map_cons]

/-- The row of payer `p`, as a permutation of the filtered trace: with
distinct keys, the last-write-wins lookup returns each payment itself. -/
theorem rowFor_perm {es : List Payment} (p : ℕ)
    (hnd : (es.map cellKey).Nodup) :
    (rowFor es p).Perm ((es.filter (fun e => e.payer = p)).map
      (fun e => (e.payee, e.amount))) := by
  have hall : ∀ e ∈ es.filter (fun e => e.payer = p), e.payer = p := by
    intro e he
    have h2 := (List.mem_filter.mp he).2
    simpa using h2
  have hknd : ((es.filter (fun e => e.payer = p)).map cellKey).Nodup :=
    List.Nodup.sublist ((List.filter_sublist es).map cellKey) hnd
  have hpn : ((es.filter (fun e => e.payer = p)).map (·.payee)).Nodup :=
    payee_nodup_aux hall hknd
  have hded : ((es.filter (fun e => e.payer = p)).map (·.payee)).dedup =
      (es.filter (fun e => e.payer = p)).map (·.payee) :=
    List.dedup_eq_self.mpr hpn
  have hg : ∀ e ∈ es.filter (fun e => e.payer = p),
      (fun c => (lastCell es p c).map fun a => (c, a)) e.payee =
        some (e.payee, e.amount) := by
    intro e he
    show (lastCell es p e.payee).map (fun a => (e.payee, a)) =
      some (e.payee, e.amount)
    have hees : e ∈ es := (List.mem_filter.mp he).1
    have hsing := filter_cellKey_singleton hnd e hees
    have hp := hall e he
    rw [hp] at hsing
    simp only [lastCell]
    rw [hsing]
    rfl
  have hfm := filterMap_payee_map (es.filter (fun e => e.payer = p))
    (fun c => (lastCell es p c).map fun a => (c, a)) hg
  unfold rowFor sortKeys
  rw [hded]
  refine List.Perm.trans (List.Perm.filterMap _ (List.perm_insertionSort _ _)) ?_
  rw [hfm]

/-- The row of payer `p` sums to the total paid by `p`. -/
theorem rowFor_val_sum {es : List Payment} (p : ℕ)
    (hnd : (es.map cellKey).Nodup) :
    ((rowFor es p).map (fun cell => cell.2.val)).sum = payerSum es p := by
  rw [List.Perm.sum_eq ((rowFor_perm p hnd).map (fun cell : ℕ × Big => cell.2.val)),
    List.map_map]
  rfl

theorem mapped_col_sum : ∀ (l : List Payment) (c : ℕ),
    (((l.map (fun e => (e.payee, e.amount))).filter
        (fun cell => cell.1 = c)).map (fun cell => cell.2.val)).sum =
      ((l.filter (fun e => e.payee = c)).map (·.amount.val)).sum := by
  intro l c
  induction l with
  | nil => rfl
  | cons a l ih =>
    rw [List.map_cons, List.filter_cons, List.filter_cons]
    by_cases h : a.payee = c
    · rw [if_pos (by simpa using h), if_pos (by simpa using h),
        List.map_cons, List.map_cons, List.sum_cons, List.sum_cons, ih]
    · rw [if_neg (by simpa using h), if_neg (by simpa using h), ih]

theorem pcSum_eq (es : List Payment) (p c : ℕ) :
    pcSum es p c = (((es.filter (fun e => e.payer = p)).filter
      (fun e => e.payee = c)).map (·.amount.val)).sum := by
  induction es with
  | nil => rfl
  | cons a es ih =>
    by_cases h1 : a.payer = p
    · have hf1 : (a :: es).filter (fun e => e.payer = p) =
          a :: es.filter (fun e => e.payer = p) := by
        simp [List.filter_cons, h1]
      by_cases h2 : a.payee = c
      · have hf2 : (a :: es.filter (fun e => e.payer = p)).filter
            (fun e => e.payee = c) =
              a :: (es.filter (fun e => e.payer = p)).filter
                (fun e => e.payee = c) := by
          simp [List.filter_cons, h2]
        rw [pcSum_cons, if_pos ⟨h1, h2⟩, ih, hf1, hf2, List.map_cons, List.sum_cons]
      · have hf2 : (a :: es.filter (fun e => e.payer = p)).filter
            (fun e => e.payee = c) =
              (es.filter (fun e => e.payer = p)).filter
                (fun e => e.payee = c) := by
          simp [List.filter_cons, h2]
        have hnc : ¬ (a.payer = p ∧ a.payee = c) := fun hc => h2 hc.2
        rw [pcSum_cons, if_neg hnc, ih, hf1, hf2, zero_add]
    · have hf1 : (a :: es).filter (fun e => e.payer = p) =
          es.filter (fun e => e.payer = p) := by
        simp [List.filter_cons, h1]
      have hnc : ¬ (a.payer = p ∧ a.payee = c) := fun hc => h1 hc.1
      rw [pcSum_cons, if_neg hnc, ih, hf1, zero_add]

/-- With distinct keys, the cells of row `p` lying in column `c` sum to
the payments from `p` to `c`. -/
theorem rowFor_col_val {es : List Payment} (p c : ℕ)
    (hnd : (es.map cellKey).Nodup) :
    (((rowFor es p).filter (fun cell => cell.1 = c)).map
      (fun cell => cell.2.val)).sum = pcSum es p c := by
  rw [List.Perm.sum_eq (((rowFor_perm p hnd).filter
      (fun cell => cell.1 = c)).map (fun cell : ℕ × Big => cell.2.val)),
    mapped_col_sum, ← pcSum_eq]

/-- Splitting the payee-sum at one payer. -/
theorem payeeSum_split (es : List Payment) (p c : ℕ) :
    payeeSum es c = pcSum es p c +
      payeeSum (es.filter (fun e => ¬ e.payer = p)) c := by
  induction es with
  | nil => simp [payeeSum_nil, pcSum]
  | cons a es ih =>
    by_cases h1 : a.payer = p
    · have hf1 : (a :: es).filter (fun e => ¬ e.payer = p) =
          es.filter (fun e => ¬ e.payer = p) := by
        simp [List.filter_cons, h1]
      rw [payeeSum_cons, pcSum_cons, ih, hf1]
      by_cases h2 : a.payee = c
      · rw [if_pos h2, if_pos ⟨h1, h2⟩]
        ring
      · rw [if_neg h2, if_neg (fun hc : a.payer = p ∧ a.payee = c => h2 hc.2)]
        ring
    · have hf1 : (a :: es).filter (fun e => ¬ e.payer = p) =
          a :: es.filter (fun e => ¬ e.payer = p) := by
        simp [List.filter_cons, h1]
      have hnc : ¬ (a.payer = p ∧ a.payee = c) := fun hc => h1 hc.1
      rw [payeeSum_cons, pcSum_cons, ih, hf1, payeeSum_cons, if_neg hnc]
      by_cases h2 : a.payee = c
      · rw [if_pos h2]
        ring
      · rw [if_neg h2]
        ring

/-- Removing the payments of a different payer leaves a pair-sum alone. -/
theorem pcSum_filter_ne (es : List Payment) {p k : ℕ} (c : ℕ) (hk : k ≠ p) :
    pcSum (es.filter (fun e => ¬ e.payer = p)) k c = pcSum es k c := by
  induction es with
  | nil => rfl
  | cons a es ih =>
    by_cases h1 : a.payer = p
    · have hf1 : (a :: es).filter (fun e => ¬ e.payer = p) =
          es.filter (fun e => ¬ e.payer = p) := by
        simp [List.filter_cons, h1]
      have hnc : ¬ (a.payer = k ∧ a.payee = c) := fun hc => hk (hc.1 ▸ h1)
      rw [hf1, ih, pcSum_cons, if_neg hnc]
      exact (zero_add _).symm
    · have hf1 : (a :: es).filter (fun e => ¬ e.payer = p) =
          a :: es.filter (fun e => ¬ e.payer = p) := by
        simp [List.filter_cons, h1]
      rw [hf1, pcSum_cons, pcSum_cons, ih]

/-- Summing the cell values payer-by-payer over a duplicate-free list of
payers covering the trace recovers a payee's total. -/
theorem pcSum_cover : ∀ (ks : List ℕ) (es : List Payment) (c : ℕ),
    ks.Nodup → (∀ e ∈ es, e.payer ∈ ks) →
    (ks.map (fun p => pcSum es p c)).sum = payeeSum es c := by
  intro ks
  induction ks with
  | nil =>
    intro es c _ hcov
    cases es with
    | nil => rfl
    | cons a l => exact absurd (hcov a (List.mem_cons_self a l)) (List.not_mem_nil _)
  | cons p ks ih =>
    intro es c hnd hcov
    rw [List.nodup_cons] at hnd
    rw [List.map_cons, List.sum_cons]
    have hcov2 : ∀ e ∈ es.filter (fun e => ¬ e.payer = p), e.payer ∈ ks := by
      intro e he
      have h1 := (List.mem_filter.mp he).1
      have h2 : ¬ e.payer = p := by
        have h3 := (List.mem_filter.mp he).2
        simpa using h3
      rcases List.mem_cons.mp (hcov e h1) with h3 | h3
      · exact absurd h3 h2
      · exact h3
    have hmap : ks.map (fun k => pcSum es k c) =
        ks.map (fun k => pcSum (es.filter (fun e => ¬ e.payer = p)) k c) :=
      List.map_congr_left fun k hk =>
        (@pcSum_filter_ne es p k c (fun hkp => hnd.1 (hkp ▸ hk))).symm
    rw [hmap, ih (es.filter (fun e => ¬ e.payer = p)) c hnd.2 hcov2,
      payeeSum_split es p c]

/-- Filtering a duplicate-free key list for one of its members yields it
alone. -/
theorem filter_eq_of_nodup : ∀ {l : List ℕ} {p : ℕ}, l.Nodup → p ∈ l →
    l.filter (fun k => k = p) = [p] := by
  intro l
  induction l with
  | nil => intro p _ hp; cases hp
  | cons a l ih =>
    intro p hnd hp
    rw [List.nodup_cons] at hnd
    rcases List.mem_cons.mp hp with heq | hp2
    · have hpos : (fun k => decide (k = p)) a = true := by
        rw [heq]
        simp
      have hnil : l.filter (fun k => k = p) = [] := by
        refine List.filter_eq_nil_iff.mpr fun x hx hdec => ?_
        have hxp : x = p := by simpa using hdec
        exact hnd.1 ((hxp.trans heq) ▸ hx)
      rw [List.filter_cons, if_pos hpos, hnil, heq]
    · have hna : ¬ ((fun k => decide (k = p)) a = true) := by
        simp only [decide_eq_true_eq]
        rintro rfl
        exact hnd.1 hp2
      rw [List.filter_cons, if_neg hna, ih hnd.2 hp2]

/-- With distinct keys, a debtor's matrix row sums to its payer total. -/
theorem matrixRows_rowSum {ids : List ℕ} {es : List Payment} {p : ℕ}
    (hnd : (es.map cellKey).Nodup) (hmem : p ∈ ids) :
    rowSumVal (matrixRows ids es) p = payerSum es p := by
  have hknd : (sortKeys ids.dedup).Nodup :=
    (List.perm_insertionSort _ _).nodup_iff.mpr (List.nodup_dedup ids)
  have hkmem : p ∈ sortKeys ids.dedup :=
    (List.perm_insertionSort _ _).mem_iff.mpr (List.mem_dedup.mpr hmem)
  unfold rowSumVal matrixRows
  rw [List.filter_map]
  have hcomp : ((fun r : ℕ × List (ℕ × Big) => decide (r.1 = p)) ∘
      fun k => (k, rowFor es k)) = fun k => decide (k = p) := rfl
  rw [hcomp, filter_eq_of_nodup hknd hkmem]
  simp only [List.map_cons, List.map_nil, List.sum_cons, List.sum_nil, add_zero]
  exact rowFor_val_sum p hnd

/-- With distinct keys and rows covering every payer, column `c` of the
matrix sums to the total received by `c`. -/
theorem matrixRows_colSum {ids : List ℕ} {es : List Payment} (c : ℕ)
    (hnd : (es.map cellKey).Nodup) (hcov : ∀ e ∈ es, e.payer ∈ ids) :
    colSumVal (matrixRows ids es) c = payeeSum es c := by
  have hknd : (sortKeys ids.dedup).Nodup :=
    (List.perm_insertionSort _ _).nodup_iff.mpr (List.nodup_dedup ids)
  have hkcov : ∀ e ∈ es, e.payer ∈ sortKeys ids.dedup := fun e he =>
    (List.perm_insertionSort _ _).mem_iff.mpr (List.mem_dedup.mpr (hcov e he))
  unfold colSumVal matrixRows
  rw [List.map_map]
  have hcomp : ((fun r : ℕ × List (ℕ × Big) =>
      ((r.2.filter (fun cell => cell.1 = c)).map (fun cell => cell.2.val)).sum) ∘
        fun k => (k, rowFor es k)) =
      fun k => (((rowFor es k).filter (fun cell => cell.1 = c)).map
        (fun cell => cell.2.val)).sum := rfl
  rw [hcomp, List.map_congr_left fun k _ => rowFor_col_val k c hnd]
  exact pcSum_cover _ es c hknd hkcov

/-- When the netting loop drains the debtor stack completely, every
debtor id appears as a payer in the recorded trace. -/
theorem settleAll_payers_cover : ∀ {cs ds : List NetPos} {es : List Payment},
    settleAll cs ds = .ok (es, []) →
    ∀ d ∈ ds, d.id ∈ es.map (·.payer) := by
  intro cs
  induction cs with
  | nil =>
    intro ds es h d hd
    cases h
    cases hd
  | cons c cs ih =>
    intro ds es h d hd
    unfold settleAll at h
    simp only at h
    set q := payCreditor c.id c.amount ds with hq
    obtain ⟨pre, hpre, hes1, -⟩ := payCreditor_eq c.id c.amount ds
    rw [← hq] at hpre hes1
    split at h
    · split at h
      · cases h
      · rename_i d0 ds2 heq1
        split at h
        · cases h
        · rename_i es2 dr2 heq2
          cases h
          rw [hpre, heq1] at hd
          rw [List.map_append, List.map_cons]
          rcases List.mem_append.mp hd with h1 | h2
          · refine List.mem_append_left _ ?_
            rw [hes1, List.map_map]
            exact List.mem_map_of_mem _ h1
          · rcases List.mem_cons.mp h2 with rfl | h3
            · exact List.mem_append_right _ (List.mem_cons_self _ _)
            · exact List.mem_append_right _ (List.mem_cons_of_mem _
                (ih heq2 d (List.mem_cons_of_mem _ h3)))
    · split at h
      · cases h
      · rename_i es2 dr2 heq2
        cases h
        rw [hpre] at hd
        rw [List.map_append]
        rcases List.mem_append.mp hd with h1 | h2
        · refine List.mem_append_left _ ?_
          rw [hes1, List.map_map]
          exact List.mem_map_of_mem _ h1
        · exact List.mem_append_right _ (ih heq2 d h2)

/-- Key lists with the same members produce the same sorted key row. -/
theorem sortKeys_dedup_eq {l1 l2 : List ℕ} (h : ∀ x, x ∈ l1 ↔ x ∈ l2) :
    sortKeys l1.dedup = sortKeys l2.dedup := by
  refine @List.eq_of_perm_of_sorted ℕ (· ≤ ·) inferInstance _ _ ?_ ?_ ?_
  · refine ((List.perm_insertionSort _ _).trans ?_).trans
      (List.perm_insertionSort _ _).symm
    refine (List.perm_ext_iff_of_nodup (List.nodup_dedup l1)
      (List.nodup_dedup l2)).mpr ?_
    intro a
    rw [List.mem_dedup, List.mem_dedup]
    exact h a
  · exact List.sorted_insertionSort _ _
  · exact List.sorted_insertionSort _ _

/-- The matrix rows depend on the key list only through its members. -/
theorem matrixRows_congr {l1 l2 : List ℕ} (es : List Payment)
    (h : ∀ x, x ∈ l1 ↔ x ∈ l2) : matrixRows l1 es = matrixRows l2 es := by
  unfold matrixRows
  rw [sortKeys_dedup_eq h]

/-- C1, conservation: on any successful engine run no matrix cell is
written twice, the returned matrix is exactly the rendering of the rows
rebuilt from the recorded assignments, each participant with a positive
net amount has a matrix row summing to exactly that amount, and each
participant with a negative net amount receives, across the matrix
column bearing its id, exactly the absolute value of its amount. -/
theorem c1_conservation {reg : String → Option ℕ} {input : SettlementInput}
    {res : MinPayResult} (h : minPaymentsAlgorithm reg input = .ok res) :
    (res.entries.map cellKey).Nodup ∧
    res.matrix = renderMatrix
      (matrixRows (res.entries.map (·.payer)) res.entries) ∧
    ∀ p ∈ input.participants, ∀ a ∈ p.accounts.head?,
      (0 < a.netSettlementAmount.amount.val →
        payerSum res.entries p.id = |a.netSettlementAmount.amount.val| ∧
        rowSumVal (matrixRows (res.entries.map (·.payer)) res.entries) p.id =
          |a.netSettlementAmount.amount.val|) ∧
      (a.netSettlementAmount.amount.val < 0 →
        payeeSum res.entries p.id = |a.netSettlementAmount.amount.val| ∧
        colSumVal (matrixRows (res.entries.map (·.payer)) res.entries) p.id =
          |a.netSettlementAmount.amount.val|) := by
  obtain ⟨ps, dp, es, hv, hs, hes, hmx⟩ := minPayments_ok_inv h
  subst hes
  obtain ⟨ms, hm, hps, -, hnd, -, -, -, hsum, -⟩ := validate_ok_inv hv
  have hperm : ps.Perm ms := by rw [hps]; exact sortPositions_perm ms
  have hsort : List.Sorted posLe ps := by rw [hps]; exact sortPositions_sorted ms
  have htot : totalVal ps = 0 := by
    have h0 := (Big.eqv_iff _ _).mp hsum
    rwa [sumAmounts_val, Big.val_zero] at h0
  have hndsplit : ((splitPositions ps).1.map (·.id) ++
      (splitPositions ps).2.map (·.id)).Nodup := by
    rw [← List.map_append, splitPositions_append]
    exact hnd
  rw [List.nodup_append] at hndsplit
  obtain ⟨hnd1, hnd2, -⟩ := hndsplit
  have hcnd : ((splitPositions ps).1.reverse.map (·.id)).Nodup := by
    rw [List.map_reverse, List.nodup_reverse]
    exact hnd1
  have hdnd : ((splitPositions ps).2.reverse.map (·.id)).Nodup := by
    rw [List.map_reverse, List.nodup_reverse]
    exact hnd2
  obtain ⟨hknd, hkpayee, hkpayer⟩ := settleAll_keys hs hcnd hdnd
  have hidset : ∀ x, x ∈ (splitPositions ps).2.map (·.id) ↔
      x ∈ res.entries.map (·.payer) := by
    intro x
    constructor
    · intro hx
      obtain ⟨d, hd, rfl⟩ := List.mem_map.mp hx
      exact settleAll_payers_cover hs d (List.mem_reverse.mpr hd)
    · intro hx
      obtain ⟨e, he, rfl⟩ := List.mem_map.mp hx
      have h2 := hkpayer e he
      rw [List.map_reverse, List.mem_reverse] at h2
      exact h2
  have hmxeq : res.matrix = renderMatrix
      (matrixRows (res.entries.map (·.payer)) res.entries) := by
    rw [hmx, matrixRows_congr res.entries hidset]
  refine ⟨hknd, hmxeq, ?_⟩
  intro p hp a ha
  have hmem : (⟨p.id, a.id, a.netSettlementAmount.amount,
      a.netSettlementAmount.currency⟩ : NetPos) ∈ toNetPos p := by
    show toNetPos p = some _
    rw [toNetPos, Option.mem_def.mp ha]
    rfl
  set m : NetPos := ⟨p.id, a.id, a.netSettlementAmount.amount,
    a.netSettlementAmount.currency⟩ with hmdef
  have hmm : m ∈ ms := mapPositions_mem hm p hp m hmem
  have hmps : m ∈ ps := hperm.mem_iff.mpr hmm
  have hpos_ps : posAmount ps p.id = m.amount.val := posAmount_single hnd hmps
  obtain ⟨hc_le, hd_ge, -⟩ := splitPositions_signs hsort htot
  have hpayer := settleAll_payer hs p.id
  have hpayee := settleAll_payee hs
    (fun c hc => hc_le c (List.mem_reverse.mp hc))
    (fun d hd => hd_ge d (List.mem_reverse.mp hd)) p.id
  have hrev1 : posAmount (splitPositions ps).1.reverse p.id =
      posAmount (splitPositions ps).1 p.id := posAmount_perm (List.reverse_perm _) _
  have hrev2 : posAmount (splitPositions ps).2.reverse p.id =
      posAmount (splitPositions ps).2 p.id := posAmount_perm (List.reverse_perm _) _
  have hsplitsum : posAmount ps p.id = posAmount (splitPositions ps).1 p.id +
      posAmount (splitPositions ps).2 p.id := by
    conv_lhs => rw [← splitPositions_append ps]
    rw [posAmount_append]
  rw [posAmount_nil, add_zero, hrev2] at hpayer
  rw [hrev1] at hpayee
  constructor
  · intro hposval
    have hnot1 : ∀ x ∈ (splitPositions ps).1, x.id ≠ p.id := by
      intro x hx hxi
      have hxps : x ∈ ps :=
        splitPositions_append ps ▸ List.mem_append_left _ hx
      have hle := hc_le x hx
      have hx_eq : x = m := eq_of_mem_nodup_id hnd hxps hmps hxi
      rw [hx_eq] at hle
      exact absurd hposval (not_lt.mpr hle)
    have h10 : posAmount (splitPositions ps).1 p.id = 0 := posAmount_eq_zero hnot1
    have hps1 : payerSum res.entries p.id = |a.netSettlementAmount.amount.val| := by
      rw [abs_of_pos hposval]
      have h2 : payerSum res.entries p.id = m.amount.val := by linarith
      exact h2
    have hpmem : p.id ∈ res.entries.map (·.payer) := by
      by_contra hnm
      have hfil : res.entries.filter (fun e => e.payer = p.id) = [] := by
        refine List.filter_eq_nil_iff.mpr fun e he hdec => ?_
        have he2 : e.payer = p.id := by simpa using hdec
        exact hnm (he2 ▸ List.mem_map_of_mem (·.payer) he)
      have h0 : payerSum res.entries p.id = 0 := by
        rw [payerSum, hfil]
        rfl
      rw [h0] at hps1
      have habs : (0:ℚ) < |a.netSettlementAmount.amount.val| :=
        abs_pos.mpr (ne_of_gt hposval)
      rw [← hps1] at habs
      exact lt_irrefl 0 habs
    refine ⟨hps1, ?_⟩
    rw [matrixRows_rowSum hknd hpmem]
    exact hps1
  · intro hnegval
    have hnot2 : ∀ x ∈ (splitPositions ps).2, x.id ≠ p.id := by
      intro x hx hxi
      have hxps : x ∈ ps :=
        splitPositions_append ps ▸ List.mem_append_right _ hx
      have hge := hd_ge x hx
      have hx_eq : x = m := eq_of_mem_nodup_id hnd hxps hmps hxi
      rw [hx_eq] at hge
      exact absurd hnegval (not_lt.mpr hge)
    have h20 : posAmount (splitPositions ps).2 p.id = 0 := posAmount_eq_zero hnot2
    have hps2 : payeeSum res.entries p.id = |a.netSettlementAmount.amount.val| := by
      rw [abs_of_neg hnegval]
      have h2 : payeeSum res.entries p.id = -(m.amount.val) := by linarith
      exact h2
    refine ⟨hps2, ?_⟩
    rw [matrixRows_colSum p.id hknd
      (fun e he => List.mem_map_of_mem (·.payer) he)]
    exact hps2


theorem totalVal_append (l1 l2 : List NetPos) :
    totalVal (l1 ++ l2) = totalVal l1 + totalVal l2 := by
  simp [totalVal]

theorem totalVal_perm {l1 l2 : List NetPos} (h : l1.Perm l2) :
    totalVal l1 = totalVal l2 :=
  List.Perm.sum_eq (List.Perm.map _ h)

theorem totalVal_nonneg : ∀ {l : List NetPos},
    (∀ x ∈ l, 0 ≤ x.amount.val) → 0 ≤ totalVal l := by
  intro l
  induction l with
  | nil => intro h; simp [totalVal]
  | cons b l ihl =>
    intro h
    rw [totalVal_cons]
    have hb := h b (List.mem_cons_self b l)
    have := ihl fun x hx => h x (List.mem_cons_of_mem b hx)
    linarith

/-- Reduction of the outer loop when the creditor is left partly unpaid
(line 123 fires). -/
theorem settleAll_cons_remainder {c : NetPos} {cs ds : List NetPos} {d : NetPos}
    {ds2 : List NetPos}
    (hlt : Big.lt (payCreditor c.id c.amount ds).2.1 Big.zero)
    (hq1 : (payCreditor c.id c.amount ds).1 = d :: ds2) :
    settleAll (c :: cs) ds =
      match settleAll cs
          ({d with amount := Big.add d.amount (payCreditor c.id c.amount ds).2.1} :: ds2) with
      | .error e => .error e
      | .ok (es2, dr) =>
        .ok ((payCreditor c.id c.amount ds).2.2 ++
          ⟨d.id, c.id, Big.timesNeg1 (payCreditor c.id c.amount ds).2.1⟩ :: es2, dr) := by
  conv_lhs => rw [settleAll]
  simp only [hq1, if_pos hlt]

/-- Reduction of the outer loop when the creditor came out fully paid. -/
theorem settleAll_cons_total {c : NetPos} {cs ds : List NetPos}
    (hnlt : ¬ Big.lt (payCreditor c.id c.amount ds).2.1 Big.zero) :
    settleAll (c :: cs) ds =
      match settleAll cs (payCreditor c.id c.amount ds).1 with
      | .error e => .error e
      | .ok (es2, dr) => .ok ((payCreditor c.id c.amount ds).2.2 ++ es2, dr) := by
  conv_lhs => rw [settleAll]
  simp only [if_neg hnlt]

/-- The drain theorem: with non-positive creditors, strictly positive
debtors and a zero grand total, the netting loop consumes every debtor
and returns without error. -/
theorem settleAll_drains : ∀ {cs ds : List NetPos},
    (∀ c ∈ cs, c.amount.val ≤ 0) → (∀ d ∈ ds, 0 < d.amount.val) →
    totalVal cs + totalVal ds = 0 →
    ∃ es, settleAll cs ds = .ok (es, []) := by
  intro cs
  induction cs with
  | nil =>
    intro ds hcs hds htot
    cases ds with
    | nil => exact ⟨[], rfl⟩
    | cons d ds =>
      exfalso
      have h1 := hds d (List.mem_cons_self d ds)
      have h2 : 0 ≤ totalVal ds :=
        totalVal_nonneg fun x hx => le_of_lt (hds x (List.mem_cons_of_mem d hx))
      rw [totalVal_cons] at htot
      have h3 : totalVal ([] : List NetPos) = 0 := rfl
      rw [h3] at htot
      linarith
  | cons c cs ih =>
    intro ds hcs hds htot
    obtain ⟨pre, hpre, hes1, hval⟩ := payCreditor_eq c.id c.amount ds
    have hc0 : c.amount.val ≤ 0 := hcs c (List.mem_cons_self c cs)
    have hcs' : ∀ x ∈ cs, x.amount.val ≤ 0 := fun x hx =>
      hcs x (List.mem_cons_of_mem c hx)
    have hnonpos := payCreditor_nonpos c.id c.amount ds hc0
    have hcstot : totalVal cs ≤ 0 := totalVal_nonpos hcs'
    have htotds : totalVal ds = totalVal pre +
        totalVal (payCreditor c.id c.amount ds).1 := by
      conv_lhs => rw [hpre]
      rw [totalVal_append]
    rw [totalVal_cons] at htot
    by_cases hlt : Big.lt (payCreditor c.id c.amount ds).2.1 Big.zero
    · have hltv : (payCreditor c.id c.amount ds).2.1.val < 0 := by
        rw [Big.lt_iff, Big.val_zero] at hlt
        exact hlt
      cases hq1 : (payCreditor c.id c.amount ds).1 with
      | nil =>
        exfalso
        rw [hq1] at htotds
        have h3 : totalVal ([] : List NetPos) = 0 := rfl
        rw [h3, add_zero] at htotds
        linarith
      | cons d ds2 =>
        have hexit := payCreditor_exit c.id c.amount ds hq1
        rw [hq1, totalVal_cons] at htotds
        have hdpos : ∀ x ∈ ds2, 0 < x.amount.val := fun x hx =>
          hds x (hpre ▸ List.mem_append_right _ (hq1 ▸ List.mem_cons_of_mem d hx))
        have hnewpos : ∀ x ∈ NetPos.mk d.id d.acctId
            (Big.add d.amount (payCreditor c.id c.amount ds).2.1) d.cur :: ds2,
            0 < x.amount.val := by
          intro x hx
          rcases List.mem_cons.mp hx with rfl | hx2
          · simp only [Big.val_add]
            linarith
          · exact hdpos x hx2
        have hnewtot : totalVal cs + totalVal (NetPos.mk d.id d.acctId
            (Big.add d.amount (payCreditor c.id c.amount ds).2.1) d.cur :: ds2) = 0 := by
          rw [totalVal_cons]
          simp only [Big.val_add]
          linarith
        obtain ⟨es2, hok⟩ := ih hcs' hnewpos hnewtot
        refine ⟨(payCreditor c.id c.amount ds).2.2 ++
          ⟨d.id, c.id, Big.timesNeg1 (payCreditor c.id c.amount ds).2.1⟩ :: es2, ?_⟩
        rw [settleAll_cons_remainder hlt hq1, hok]
    · have hzero : (payCreditor c.id c.amount ds).2.1.val = 0 := by
        rw [Big.lt_iff, Big.val_zero, not_lt] at hlt
        exact le_antisymm hnonpos hlt
      have hrest : ∀ x ∈ (payCreditor c.id c.amount ds).1, 0 < x.amount.val :=
        fun x hx => hds x (hpre ▸ List.mem_append_right _ hx)
      have hnewtot : totalVal cs + totalVal (payCreditor c.id c.amount ds).1 = 0 := by
        rw [hval] at hzero
        linarith
      obtain ⟨es2, hok⟩ := ih hcs' hrest hnewtot
      exact ⟨(payCreditor c.id c.amount ds).2.2 ++ es2, by
        rw [settleAll_cons_total hlt, hok]⟩

theorem jsFindIndex_some_mem {p : α → Prop} [DecidablePred p] :
    ∀ {l : List α} {i : ℕ}, jsFindIndex p l = some i → ∃ x ∈ l, p x := by
  intro l
  induction l with
  | nil => intro i h; exact absurd h (by simp [jsFindIndex])
  | cons a l ih =>
    intro i h
    unfold jsFindIndex at h
    split at h
    · rename_i ha
      exact ⟨a, List.mem_cons_self a l, ha⟩
    · cases hj : jsFindIndex p l with
      | none => rw [hj] at h; cases h
      | some j =>
        obtain ⟨x, hx, hpx⟩ := ih hj
        exact ⟨x, List.mem_cons_of_mem a hx, hpx⟩

theorem mapPositions_length : ∀ {l : List Participant} {ms : List NetPos},
    mapPositions l = .ok ms → ms.length = l.length := by
  intro l
  induction l with
  | nil => intro ms h; cases h; rfl
  | cons p l ih =>
    intro ms h
    unfold mapPositions at h
    split at h
    · cases h
    · split at h
      · cases h
      · rename_i heq
        cases h
        simp [ih heq]

theorem sortPositions_length (ms : List NetPos) :
    (sortPositions ms).length = ms.length :=
  (sortPositions_perm ms).length_eq

/-- All-zero creditors against an empty debtor stack settle trivially. -/
theorem settleAll_zero_creditors : ∀ {cs : List NetPos},
    (∀ c ∈ cs, c.amount.val = 0) → settleAll cs [] = .ok ([], []) := by
  intro cs
  induction cs with
  | nil => intro h; rfl
  | cons c cs ih =>
    intro hall
    have hc : c.amount.val = 0 := hall c (List.mem_cons_self c cs)
    have hq : payCreditor c.id c.amount [] = ([], c.amount, []) := rfl
    have hnlt : ¬ Big.lt (payCreditor c.id c.amount []).2.1 Big.zero := by
      rw [hq, Big.lt_iff, Big.val_zero, hc]
      exact lt_irrefl 0
    rw [settleAll_cons_total hnlt, hq,
      ih fun x hx => hall x (List.mem_cons_of_mem c hx)]
    rfl

/-- At least one all-zero creditor settles the lone zero debtor left by
the `splice(-1)` fallback, leaving the stack empty. -/
theorem settleAll_zeros_one {c0 : NetPos} {cs : List NetPos} {d : NetPos}
    (hall : ∀ x ∈ c0 :: cs, x.amount.val = 0) (hd : d.amount.val = 0) :
    ∃ es, settleAll (c0 :: cs) [d] = .ok (es, []) := by
  have hc0 : c0.amount.val = 0 := hall c0 (List.mem_cons_self c0 cs)
  have hle : Big.le (Big.add c0.amount d.amount) Big.zero := by
    rw [Big.le_iff, Big.val_add, Big.val_zero, hc0, hd]
    norm_num
  have hq : payCreditor c0.id c0.amount [d] =
      ([], Big.add c0.amount d.amount, [⟨d.id, c0.id, d.amount⟩]) := by
    rw [payCreditor_cons_pos c0.id [] hle]
    rfl
  have hnlt : ¬ Big.lt (payCreditor c0.id c0.amount [d]).2.1 Big.zero := by
    rw [hq, Big.lt_iff, Big.val_zero, Big.val_add, hc0, hd]
    norm_num
  refine ⟨[⟨d.id, c0.id, d.amount⟩], ?_⟩
  rw [settleAll_cons_total hnlt, hq,
    settleAll_zero_creditors fun x hx => hall x (List.mem_cons_of_mem c0 hx)]
  rfl

/-- C2 amended: for every input that passes validation AND holds at
least two participants, the engine returns a matrix — neither the
'Failed to balance payments' branch nor any other error is reached. -/
theorem c2_no_failedToBalance {reg : String → Option ℕ}
    {input : SettlementInput} {ps : List NetPos} {dp : ℕ}
    (hv : validate reg input = .ok (ps, dp))
    (h2 : 2 ≤ input.participants.length) :
    ∃ res, minPaymentsAlgorithm reg input = .ok res := by
  obtain ⟨ms, hm, hps, -, -, -, -, -, hsum, -⟩ := validate_ok_inv hv
  have hsort : List.Sorted posLe ps := by rw [hps]; exact sortPositions_sorted ms
  have htot : totalVal ps = 0 := by
    have h0 := (Big.eqv_iff _ _).mp hsum
    rwa [sumAmounts_val, Big.val_zero] at h0
  have hlen_ps : ps.length = input.participants.length := by
    rw [hps, sortPositions_length, mapPositions_length hm]
  obtain ⟨hc_le, hd_ge, hstrict⟩ := splitPositions_signs hsort htot
  have happ := splitPositions_append ps
  have htot2 : totalVal (splitPositions ps).1 + totalVal (splitPositions ps).2 = 0 := by
    rw [← totalVal_append, happ]
    exact htot
  have hfinish : ∀ es, settleAll (splitPositions ps).1.reverse
      (splitPositions ps).2.reverse = .ok (es, []) →
      ∃ res, minPaymentsAlgorithm reg input = .ok res := by
    intro es hok
    refine ⟨⟨((input.participants.head?.bind (·.accounts.head?)).map
        (·.netSettlementAmount.currency)).getD "", es,
      renderMatrix (matrixRows ((splitPositions ps).2.map (·.id)) es)⟩, ?_⟩
    unfold minPaymentsAlgorithm
    rw [hv]
    simp only
    rw [hok]
    simp
  rcases hstrict with hpos | hzero
  · obtain ⟨es, hok⟩ := settleAll_drains
      (fun c hc => hc_le c (List.mem_reverse.mp hc))
      (fun d hd => hpos d (List.mem_reverse.mp hd))
      (by rw [totalVal_perm (List.reverse_perm _), totalVal_perm (List.reverse_perm _)]
          exact htot2)
    exact hfinish es hok
  · have hfi : jsFindIndex (fun q => Big.lt Big.zero q.amount) ps = none := by
      cases hfi : jsFindIndex (fun q => Big.lt Big.zero q.amount) ps with
      | none => rfl
      | some i =>
        exfalso
        obtain ⟨x, hx, hpx⟩ := jsFindIndex_some_mem hfi
        rw [Big.lt_iff, Big.val_zero] at hpx
        rw [hzero x hx] at hpx
        exact lt_irrefl 0 hpx
    have hcd : splitPositions ps =
        (ps.take (ps.length - 1), ps.drop (ps.length - 1)) := by
      unfold splitPositions
      rw [hfi]
    have hlen2 : 2 ≤ ps.length := by rw [hlen_ps]; exact h2
    obtain ⟨d, hdrop⟩ : ∃ d, ps.drop (ps.length - 1) = [d] := by
      have hl : (ps.drop (ps.length - 1)).length = 1 := by
        rw [List.length_drop]
        omega
      cases hdd : ps.drop (ps.length - 1) with
      | nil => rw [hdd] at hl; cases hl
      | cons d rest =>
        rw [hdd, List.length_cons] at hl
        exact ⟨d, by
          rw [List.length_eq_zero.mp (show rest.length = 0 by omega)]⟩
    obtain ⟨c0, cs0, hcred⟩ :
        ∃ c0 cs0, (ps.take (ps.length - 1)).reverse = c0 :: cs0 := by
      have hlt : (ps.take (ps.length - 1)).reverse.length = ps.length - 1 := by
        rw [List.length_reverse, List.length_take]
        omega
      cases hcc : (ps.take (ps.length - 1)).reverse with
      | nil =>
        rw [hcc] at hlt
        simp only [List.length_nil] at hlt
        omega
      | cons c0 cs0 => exact ⟨c0, cs0, rfl⟩
    have hall0 : ∀ x ∈ c0 :: cs0, x.amount.val = 0 := by
      intro x hx
      rw [← hcred] at hx
      exact hzero x ((List.take_sublist _ _).subset (List.mem_reverse.mp hx))
    have hd0 : d.amount.val = 0 :=
      hzero d ((List.drop_sublist _ _).subset
        (by rw [hdrop]; exact List.mem_cons_self d []))
    obtain ⟨es, hok⟩ := settleAll_zeros_one hall0 hd0
    refine hfinish es ?_
    rw [hcd]
    simp only
    rw [hcred, hdrop]
    simpa using hok

/-- Transfer count of the netting loop: when the debtor stack drains and
at least one creditor was processed, the loop records at most
`debtors + creditors − 1` payments (the last creditor consumes debtors
without a remainder payment). -/
theorem settleAll_count : ∀ {cs ds : List NetPos} {es : List Payment}
    {dr : List NetPos}, settleAll cs ds = .ok (es, dr) → dr = [] →
    cs = [] ∨ es.length + 1 ≤ ds.length + cs.length := by
  intro cs
  induction cs with
  | nil =>
    intro ds es dr h hdr
    exact Or.inl rfl
  | cons c cs ih =>
    intro ds es dr h hdr
    unfold settleAll at h
    simp only at h
    obtain ⟨pre, hpre, hes1, -⟩ := payCreditor_eq c.id c.amount ds
    have hlen1 : (payCreditor c.id c.amount ds).2.2.length = pre.length := by
      rw [hes1, List.length_map]
    have hlends : ds.length = pre.length + (payCreditor c.id c.amount ds).1.length := by
      conv_lhs => rw [hpre]
      rw [List.length_append]
    split at h
    · split at h
      · cases h
      · rename_i d ds2 heq1
        split at h
        · cases h
        · rename_i es2 dr2 heq2
          cases h
          rcases ih heq2 hdr with hnil | hle
          · exfalso
            rw [hnil] at heq2
            simp only [settleAll] at heq2
            cases heq2
            cases hdr
          · refine Or.inr ?_
            rw [heq1, List.length_cons] at hlends
            rw [List.length_cons] at hle
            simp only [List.length_append, List.length_cons, hlen1,
              List.length_cons]
            omega
    · split at h
      · cases h
      · rename_i es2 dr2 heq2
        cases h
        rcases ih heq2 hdr with hnil | hle
        · refine Or.inr ?_
          rw [hnil] at heq2
          simp only [settleAll] at heq2
          cases heq2
          rw [hdr, List.length_nil] at hlends
          simp only [List.length_append, hlen1, hnil, List.length_nil,
            List.length_cons, hdr]
          omega
        · refine Or.inr ?_
          simp only [List.length_append, List.length_cons, hlen1]
          omega

/-- The number of cells of a row never exceeds the number of assignments
made with that payer. -/
theorem length_rowFor_le (es : List Payment) (p : ℕ) :
    (rowFor es p).length ≤ (es.filter (fun e => e.payer = p)).length := by
  have h1 := List.length_filterMap_le
    (fun c => (lastCell es p c).map fun a => (c, a))
    (sortKeys ((es.filter (fun e => e.payer = p)).map (·.payee)).dedup)
  have h2 : (sortKeys ((es.filter (fun e => e.payer = p)).map (·.payee)).dedup).length =
      ((es.filter (fun e => e.payer = p)).map (·.payee)).dedup.length :=
    (List.perm_insertionSort _ _).length_eq
  have h3 := (List.dedup_sublist
    ((es.filter (fun e => e.payer = p)).map (·.payee))).length_le
  rw [List.length_map] at h3
  rw [rowFor]
  omega

/-- Summed over distinct payers, the per-payer assignment counts are
bounded by the total assignment count. -/
theorem sum_filter_payer_le : ∀ {ks : List ℕ}, ks.Nodup → ∀ es : List Payment,
    ((ks.map fun p => (es.filter fun e => e.payer = p).length).sum) ≤ es.length := by
  intro ks
  induction ks with
  | nil => intro h es; simp
  | cons p ks ih =>
    intro hnd es
    rw [List.map_cons, List.sum_cons]
    rw [List.nodup_cons] at hnd
    have key : ∀ k ∈ ks, (es.filter fun e => e.payer = k) =
        ((es.filter fun e => ¬ e.payer = p).filter fun e => e.payer = k) := by
      intro k hk
      rw [List.filter_filter]
      refine (List.filter_congr ?_).symm
      intro e he
      by_cases hek : e.payer = k
      · have hkp : ¬ k = p := fun hkp => hnd.1 (hkp ▸ hk)
        have hep : ¬ e.payer = p := fun hep => hkp (hek.symm.trans hep)
        simp [hek, hep, hkp]
      · simp [hek]
    have hmap : (ks.map fun k => (es.filter fun e => e.payer = k).length) =
        ks.map fun k =>
          (((es.filter fun e => ¬ e.payer = p).filter fun e => e.payer = k).length) :=
      List.map_congr_left fun k hk => by rw [key k hk]
    rw [hmap]
    have hih := ih hnd.2 (es.filter fun e => ¬ e.payer = p)
    have hsplit := List.length_eq_length_filter_add (l := es)
      (fun e => decide (e.payer = p))
    have hnot : (es.filter fun e => ¬ e.payer = p) =
        es.filter fun e => !(decide (e.payer = p)) := by
      refine List.filter_congr ?_
      intro e he
      by_cases hek : e.payer = p <;> simp [hek]
    rw [hnot] at hih ⊢
    omega

/-- Number of matrix cells whose rendered amount is not `"0"`. -/
def nonzeroCells (matrix : List (ℕ × List (ℕ × String))) : ℕ :=
  (matrix.map fun row => (row.2.filter fun c => ¬ c.2 = "0").length).sum

/-- The nonzero-cell count of the built matrix is bounded by the number
of assignments the loop performed. -/
theorem nonzeroCells_le (ids : List ℕ) (es : List Payment) :
    nonzeroCells (renderMatrix (matrixRows ids es)) ≤ es.length := by
  unfold nonzeroCells renderMatrix matrixRows
  rw [List.map_map, List.map_map]
  have hnd : (sortKeys ids.dedup).Nodup :=
    (List.perm_insertionSort _ _).nodup_iff.mpr (List.nodup_dedup _)
  have hpoint : ∀ p ∈ sortKeys ids.dedup,
      (((rowFor es p).map fun c => (c.1, c.2.toString)).filter
        fun c => ¬ c.2 = "0").length ≤ (es.filter fun e => e.payer = p).length := by
    intro p hp
    have h1 := List.length_filter_le (fun c : ℕ × String => decide (¬ c.2 = "0"))
      ((rowFor es p).map fun c => (c.1, c.2.toString))
    rw [List.length_map] at h1
    exact le_trans h1 (length_rowFor_le es p)
  calc ((sortKeys ids.dedup).map _).sum
      ≤ ((sortKeys ids.dedup).map fun p =>
          (es.filter fun e => e.payer = p).length).sum :=
        List.sum_le_sum hpoint
    _ ≤ es.length := sum_filter_payer_le hnd es

/-- C5: on any successful engine run the matrix holds at most
`participants − 1` nonzero cells. -/
theorem c5_minimality {reg : String → Option ℕ} {input : SettlementInput}
    {res : MinPayResult} (h : minPaymentsAlgorithm reg input = .ok res) :
    nonzeroCells res.matrix ≤ input.participants.length - 1 := by
  obtain ⟨ps, dp, es, hv, hs, hes, hmx⟩ := minPayments_ok_inv h
  obtain ⟨ms, hm, hps, -, -, -, -, -, -, -⟩ := validate_ok_inv hv
  have hlen_ps : ps.length = input.participants.length := by
    rw [hps, sortPositions_length, mapPositions_length hm]
  have happ := splitPositions_append ps
  have hlens : (splitPositions ps).1.length + (splitPositions ps).2.length =
      ps.length := by
    rw [← List.length_append, happ]
  have hbound : es.length ≤ input.participants.length - 1 := by
    rcases settleAll_count hs rfl with hnil | hle
    · rw [hnil] at hs
      simp only [settleAll] at hs
      injection hs with hs1
      injection hs1 with hs2 hs3
      rw [← hs2]
      simp only [List.length_nil]
      omega
    · rw [List.length_reverse, List.length_reverse] at hle
      omega
  calc nonzeroCells res.matrix
      = nonzeroCells (renderMatrix
          (matrixRows ((splitPositions ps).2.map (·.id)) es)) := by rw [hmx]
    _ ≤ es.length := nonzeroCells_le _ es
    _ ≤ input.participants.length - 1 := hbound

theorem c1_conservation_witness :
    minPaymentsAlgorithm currencies s1Input =
        .ok ⟨"USD", [⟨1, 2, ⟨10, 0⟩⟩], [(1, [(2, "10")])]⟩ ∧
      (((MinPayResult.mk "USD" [⟨1, 2, ⟨10, 0⟩⟩] [(1, [(2, "10")])]).entries.map
          cellKey).Nodup ∧
        (MinPayResult.mk "USD" [⟨1, 2, ⟨10, 0⟩⟩] [(1, [(2, "10")])]).matrix =
          renderMatrix (matrixRows
            ((MinPayResult.mk "USD" [⟨1, 2, ⟨10, 0⟩⟩]
              [(1, [(2, "10")])]).entries.map (·.payer))
            (MinPayResult.mk "USD" [⟨1, 2, ⟨10, 0⟩⟩]
              [(1, [(2, "10")])]).entries) ∧
        ∀ p ∈ s1Input.participants, ∀ a ∈ p.accounts.head?,
          (0 < a.netSettlementAmount.amount.val →
            payerSum (MinPayResult.mk "USD" [⟨1, 2, ⟨10, 0⟩⟩]
              [(1, [(2, "10")])]).entries p.id =
                |a.netSettlementAmount.amount.val| ∧
            rowSumVal (matrixRows
              ((MinPayResult.mk "USD" [⟨1, 2, ⟨10, 0⟩⟩]
                [(1, [(2, "10")])]).entries.map (·.payer))
              (MinPayResult.mk "USD" [⟨1, 2, ⟨10, 0⟩⟩]
                [(1, [(2, "10")])]).entries) p.id =
                |a.netSettlementAmount.amount.val|) ∧
          (a.netSettlementAmount.amount.val < 0 →
            payeeSum (MinPayResult.mk "USD" [⟨1, 2, ⟨10, 0⟩⟩]
              [(1, [(2, "10")])]).entries p.id =
                |a.netSettlementAmount.amount.val| ∧
            colSumVal (matrixRows
              ((MinPayResult.mk "USD" [⟨1, 2, ⟨10, 0⟩⟩]
                [(1, [(2, "10")])]).entries.map (·.payer))
              (MinPayResult.mk "USD" [⟨1, 2, ⟨10, 0⟩⟩]
                [(1, [(2, "10")])]).entries) p.id =
                |a.netSettlementAmount.amount.val|)) :=
  ⟨by decide, @c1_conservation currencies s1Input
    ⟨"USD", [⟨1, 2, ⟨10, 0⟩⟩], [(1, [(2, "10")])]⟩ (by decide)⟩

theorem c2_no_failedToBalance_witness :
    validate currencies s1Input =
        .ok ([⟨2, 102, ⟨-10, 0⟩, "USD"⟩, ⟨1, 101, ⟨10, 0⟩, "USD"⟩], 2) ∧
      2 ≤ s1Input.participants.length ∧
      ∃ res, minPaymentsAlgorithm currencies s1Input = .ok res :=
  ⟨by decide, by decide, @c2_no_failedToBalance currencies s1Input
    [⟨2, 102, ⟨-10, 0⟩, "USD"⟩, ⟨1, 101, ⟨10, 0⟩, "USD"⟩] 2
    (by decide) (by decide)⟩

theorem c5_minimality_witness :
    minPaymentsAlgorithm currencies s1Input =
        .ok ⟨"USD", [⟨1, 2, ⟨10, 0⟩⟩], [(1, [(2, "10")])]⟩ ∧
      nonzeroCells (MinPayResult.mk "USD" [⟨1, 2, ⟨10, 0⟩⟩]
        [(1, [(2, "10")])]).matrix ≤ s1Input.participants.length - 1 :=
  ⟨by decide, @c5_minimality currencies s1Input
    ⟨"USD", [⟨1, 2, ⟨10, 0⟩⟩], [(1, [(2, "10")])]⟩ (by decide)⟩

/-- `buildDecimalRate` of `src/admin/api.js` (lines 346-362), with the
JS string as a list of characters.  `position` clamps the negative case
to 0 exactly as the ternary does (ℕ subtraction truncates the same
way); when `position` is 0, `rate.slice(0, position)` is the empty
string, which is falsy, so `|| 0` substitutes the NUMBER 0 and the
template literal renders it as the character `0`. -/
def buildDecimalRate (rate : List Char) (decimalPlaces : ℕ) : List Char :=
  if decimalPlaces = 0 then rate
  else
    let position := rate.length - decimalPlaces
    let integerPart := if position = 0 then ['0'] else rate.take position
    let decimalPart := rate.drop position
    integerPart ++ '.' :: decimalPart

/-- The natural number a digit string denotes (base 10, '0' = 48). -/
def digitsToNat (s : List Char) : ℕ :=
  s.foldl (fun a c => 10 * a + (c.toNat - 48)) 0

/-- Reading a decimal numeral (digits with at most one point) as an
exact rational: the measuring instrument of the round-trip property
(not part of the source). -/
def parseDecAsRat (s : List Char) : ℚ :=
  let ip := s.takeWhile fun c => ¬ c = '.'
  match s.dropWhile fun c => ¬ c = '.' with
  | [] => (digitsToNat ip : ℚ)
  | _ :: frac => (digitsToNat ip : ℚ) + (digitsToNat frac : ℚ) / 10 ^ frac.length

theorem digitsToNat_go : ∀ (l : List Char) (a : ℕ),
    l.foldl (fun a c => 10 * a + (c.toNat - 48)) a =
      a * 10 ^ l.length + digitsToNat l := by
  intro l
  induction l with
  | nil => intro a; simp [digitsToNat]
  | cons c l ih =>
    intro a
    rw [List.foldl_cons, ih]
    have h2 : digitsToNat (c :: l) = (c.toNat - 48) * 10 ^ l.length + digitsToNat l := by
      rw [digitsToNat, List.foldl_cons, ih]
      ring_nf
    rw [h2, List.length_cons]
    ring

theorem digitsToNat_append (l1 l2 : List Char) :
    digitsToNat (l1 ++ l2) = digitsToNat l1 * 10 ^ l2.length + digitsToNat l2 := by
  rw [digitsToNat, List.foldl_append, ← digitsToNat, digitsToNat_go]

theorem split_at_dot : ∀ {l1 : List Char} (l2 : List Char),
    (∀ c ∈ l1, ¬ c = '.') →
    ((l1 ++ '.' :: l2).takeWhile fun c => ¬ c = '.') = l1 ∧
      ((l1 ++ '.' :: l2).dropWhile fun c => ¬ c = '.') = '.' :: l2 := by
  intro l1
  induction l1 with
  | nil =>
    intro l2 h
    constructor <;> simp [List.takeWhile, List.dropWhile]
  | cons c l1 ih =>
    intro l2 h
    have hc : ¬ c = '.' := h c (List.mem_cons_self c l1)
    obtain ⟨h1, h2⟩ := ih l2 fun x hx => h x (List.mem_cons_of_mem c hx)
    simp only [decide_not] at h1 h2
    constructor
    · simp only [List.cons_append, List.takeWhile_cons, hc]
      simp [h1, hc]
    · simp only [List.cons_append, List.dropWhile_cons]
      simp [h2, hc]

theorem no_dot_splits {l : List Char} (h : ∀ c ∈ l, ¬ c = '.') :
    (l.takeWhile fun c => ¬ c = '.') = l ∧
      (l.dropWhile fun c => ¬ c = '.') = [] := by
  induction l with
  | nil => constructor <;> rfl
  | cons c l ih =>
    have hc : ¬ c = '.' := h c (List.mem_cons_self c l)
    obtain ⟨h1, h2⟩ := ih fun x hx => h x (List.mem_cons_of_mem c hx)
    simp only [decide_not] at h1 h2
    constructor
    · simp only [List.takeWhile_cons]
      simp [h1, hc]
    · simp only [List.dropWhile_cons]
      simp [h2, hc]

theorem digit_ne_dot {c : Char} (h : c.isDigit) : ¬ c = '.' := by
  intro hc
  rw [hc] at h
  exact absurd h (by decide)

/-- C7 amended: for a non-empty digit string `s` and `d ≤ length s`,
reading `buildDecimalRate s d` as a rational and multiplying by `10^d`
recovers the integer denoted by `s`.  (For `d > length s` the function
caps the point at position 0 and the property fails.) -/
theorem c7_buildDecimalRate_roundtrip (s : List Char) (d : ℕ)
    (hne : s ≠ []) (hdig : ∀ c ∈ s, c.isDigit) (hd : d ≤ s.length) :
    parseDecAsRat (buildDecimalRate s d) * 10 ^ d = (digitsToNat s : ℚ) := by
  have hnodot : ∀ c ∈ s, ¬ c = '.' := fun c hc => digit_ne_dot (hdig c hc)
  by_cases hd0 : d = 0
  · subst hd0
    rw [buildDecimalRate, if_pos rfl]
    obtain ⟨h1, h2⟩ := no_dot_splits hnodot
    rw [parseDecAsRat]
    simp only [h1, h2]
    rw [pow_zero, mul_one]
  · rw [buildDecimalRate, if_neg hd0]
    simp only
    by_cases hpos : s.length - d = 0
    · have hdl : d = s.length := by omega
      rw [if_pos hpos, hpos, List.drop_zero]
      obtain ⟨h1, h2⟩ := @split_at_dot ['0'] s (by decide)
      rw [parseDecAsRat]
      simp only [h1, h2]
      have h0 : digitsToNat ['0'] = 0 := rfl
      rw [h0, hdl]
      push_cast
      field_simp
    · rw [if_neg hpos]
      have htake_dig : ∀ c ∈ s.take (s.length - d), ¬ c = '.' :=
        fun c hc => hnodot c ((List.take_sublist _ _).subset hc)
      obtain ⟨h1, h2⟩ := split_at_dot (s.drop (s.length - d)) htake_dig
      rw [parseDecAsRat]
      simp only [h1, h2]
      have hlen : (s.drop (s.length - d)).length = d := by
        rw [List.length_drop]
        omega
      have happ := digitsToNat_append (s.take (s.length - d)) (s.drop (s.length - d))
      rw [List.take_append_drop] at happ
      rw [happ, hlen]
      push_cast
      field_simp

/-- C7 counterexample: `buildDecimalRate "5" 2 = "0.5"`, and `0.5 × 10²
= 50`, not the integer 5 denoted by `"5"` — the universally quantified
round trip fails as soon as `d` exceeds the string's length. -/
theorem c7_roundtrip_fails_beyond_length :
    buildDecimalRate ['5'] 2 = ['0', '.', '5'] ∧
      (['5'] ≠ ([] : List Char) ∧ ∀ c ∈ ['5'], c.isDigit) ∧
      parseDecAsRat (buildDecimalRate ['5'] 2) * 10 ^ 2 ≠
        (digitsToNat ['5'] : ℚ) := by
  refine ⟨by decide, ⟨by decide, by decide⟩, ?_⟩
  have h1 : buildDecimalRate ['5'] 2 = ['0', '.', '5'] := by decide
  rw [h1]
  have h2 : parseDecAsRat ['0', '.', '5'] = 1 / 2 := by
    rw [parseDecAsRat]
    have ht : (['0', '.', '5'].takeWhile fun c => ¬ c = '.') = ['0'] := by decide
    have hdw : (['0', '.', '5'].dropWhile fun c => ¬ c = '.') = ['.', '5'] := by
      decide
    simp only [ht, hdw]
    have h01 : digitsToNat ['0'] = 0 := by decide
    have h51 : digitsToNat ['5'] = 5 := by decide
    rw [h01, h51]
    norm_num
  rw [h2]
  have h5 : digitsToNat ['5'] = 5 := by decide
  rw [h5]
  norm_num

theorem c7_roundtrip_witness :
    (['1', '2', '3', '4', '5', '6'] ≠ ([] : List Char)) ∧
      (∀ c ∈ ['1', '2', '3', '4', '5', '6'], c.isDigit) ∧
      4 ≤ (['1', '2', '3', '4', '5', '6'] : List Char).length ∧
      parseDecAsRat (buildDecimalRate ['1', '2', '3', '4', '5', '6'] 4) * 10 ^ 4 =
        (digitsToNat ['1', '2', '3', '4', '5', '6'] : ℚ) :=
  ⟨by decide, by decide, by decide,
    c7_buildDecimalRate_roundtrip ['1', '2', '3', '4', '5', '6'] 4
      (by decide) (by decide) (by decide)⟩

/-- An XML text node (`{ _text: ... }` in xml-js compact form). -/
structure TextNode where
  _text : String
deriving Repr, DecidableEq

/-- A text node the source assigns a JavaScript number to
(`GrpHdr.NbOfTxs._text = paymentsArr.length`). -/
structure NatNode where
  _text : ℕ
deriving Repr, DecidableEq

/-- A text node carrying a monetary sum.  The source stores
`big.toString()` of exactly this value; `Big.toString` is a function of
the node's value, so equalities proved on the values carry to the
stored strings. -/
structure BigNode where
  _text : Big
deriving Repr, DecidableEq

/-- `GrpHdr` with the four children `format` writes (lines 178-181). -/
structure GrpHdrT where
  MsgId : TextNode
  CreDtTm : TextNode
  NbOfTxs : NatNode
  CtrlSum : BigNode
deriving Repr, DecidableEq

structure RmtInfT where
  Ustrd : TextNode
deriving Repr, DecidableEq

structure PmtIdT where
  EndToEndId : TextNode
deriving Repr, DecidableEq

structure CcyAttr where
  Ccy : String
deriving Repr, DecidableEq

structure InstdAmtT where
  _attributes : CcyAttr
  _text : Big
deriving Repr, DecidableEq

structure AmtT where
  InstdAmt : InstdAmtT
deriving Repr, DecidableEq

structure PstlAdrT where
  Ctry : TextNode
deriving Repr, DecidableEq

structure CtctDtlsT where
  Nm : TextNode
deriving Repr, DecidableEq

structure CdtrT where
  Nm : TextNode
  PstlAdr : PstlAdrT
  CtctDtls : CtctDtlsT
deriving Repr, DecidableEq

structure OthrIdT where
  Id : TextNode
deriving Repr, DecidableEq

structure AcctIdT where
  Othr : OthrIdT
deriving Repr, DecidableEq

structure CdtrAcctT where
  Id : AcctIdT
deriving Repr, DecidableEq

/-- One `CdtTrfTxInf` entry.  `RmtInf` is optional: every output entry
spreads the template's first entry (`creditInfTemplate`), and when the
template carries no entry the spread of `undefined` simply yields an
object without `RmtInf`. -/
structure CdtTrfTxInfT where
  PmtId : PmtIdT
  Amt : AmtT
  Cdtr : CdtrT
  CdtrAcct : CdtrAcctT
  RmtInf : Option RmtInfT
deriving Repr, DecidableEq

structure OrgIdT where
  BICOrBEI : TextNode
deriving Repr, DecidableEq

structure DbtrIdT where
  OrgId : OrgIdT
deriving Repr, DecidableEq

structure DbtrT where
  Nm : TextNode
  PstlAdr : PstlAdrT
  Id : DbtrIdT
deriving Repr, DecidableEq

structure DbtrAcctT where
  Id : AcctIdT
  Ccy : TextNode
deriving Repr, DecidableEq

/-- One `PmtInf` group.  The scalar fields are plain values, exactly as
the source assigns them (`PmtInfId: i.toString()`, `NbOfTxs: length`,
`CtrlSum: Big reduce`, `ReqdExctnDt: nowDate` — none is wrapped in a
`_text` node by `format`). -/
structure PmtInfT where
  PmtInfId : String
  NbOfTxs : ℕ
  CtrlSum : Big
  ReqdExctnDt : String
  Dbtr : DbtrT
  DbtrAcct : DbtrAcctT
  CdtTrfTxInf : List CdtTrfTxInfT
deriving Repr, DecidableEq

/-- The `PmtInf` property of the document: xml-js yields the single
skeleton group as one object, and line 218 overwrites the property with
the built ARRAY — JavaScript lets the same property hold either. -/
inductive PmtInfSlot where
  | one : PmtInfT → PmtInfSlot
  | many : List PmtInfT → PmtInfSlot
deriving Repr, DecidableEq

structure CstmrT where
  GrpHdr : GrpHdrT
  PmtInf : PmtInfSlot
deriving Repr, DecidableEq

structure DocAttrs where
  xmlns : String
deriving Repr, DecidableEq

structure DocumentT where
  _attributes : DocAttrs
  CstmrCdtTrfInitn : CstmrT
deriving Repr, DecidableEq

/-- The in-memory pain.001 document tree (the parts `format` reads or
writes). -/
structure TemplateDoc where
  Document : DocumentT
deriving Repr, DecidableEq

/-- The `PmtInf` groups of a document, whichever shape the slot has. -/
def pmtInfList (t : TemplateDoc) : List PmtInfT :=
  match t.Document.CstmrCdtTrfInitn.PmtInf with
  | .one p => [p]
  | .many l => l

/-- One DFSP-directory record (`{ name, country, accountId }`). -/
structure DfspRec where
  name : String
  country : String
  accountId : List Char
deriving Repr, DecidableEq, Inhabited

/-- JavaScript object lookup `dfspConf[id]` / `id in dfspConf`. -/
def dfspLookup (conf : List (ℕ × DfspRec)) (i : ℕ) : Option DfspRec :=
  (conf.find? fun kv => kv.1 = i).map (·.2)

/-- `n` bytes of the cryptographic random source starting at position
`off` (`crypto.randomBytes` consumes the stream sequentially). -/
def drawBytes (src : ℕ → ℕ) (off n : ℕ) : List ℕ :=
  (List.range n).map fun k => src (off + k) % 256

/-- One lowercase hexadecimal digit. -/
def hexDigit (d : ℕ) : Char :=
  if d < 10 then Char.ofNat (48 + d) else Char.ofNat (97 + (d - 10))

/-- `Buffer.toString('hex')`: two lowercase hex digits per byte. -/
def hexOfBytes (bytes : List ℕ) : List Char :=
  bytes.flatMap fun b => [hexDigit (b % 256 / 16), hexDigit (b % 16)]

/-- One character of the standard base64 alphabet. -/
def b64Char (n : ℕ) : Char :=
  if n < 26 then Char.ofNat (65 + n)
  else if n < 52 then Char.ofNat (97 + (n - 26))
  else if n < 62 then Char.ofNat (48 + (n - 52))
  else if n = 62 then '+' else '/'

/-- `Buffer.toString('base64')`. -/
def base64Chars : List ℕ → List Char
  | [] => []
  | [b1] => [b64Char (b1 / 4), b64Char (b1 % 4 * 16), '=', '=']
  | [b1, b2] =>
    [b64Char (b1 / 4), b64Char (b1 % 4 * 16 + b2 / 16), b64Char (b2 % 16 * 4), '=']
  | b1 :: b2 :: b3 :: rest =>
    b64Char (b1 / 4) :: b64Char (b1 % 4 * 16 + b2 / 16) ::
      b64Char (b2 % 16 * 4 + b3 / 64) :: b64Char (b3 % 64) :: base64Chars rest

/-- Line 178: `crypto.randomBytes(27).toString('base64').substring(0, 35)`. -/
def msgIdFrom (src : ℕ → ℕ) : String :=
  String.mk ((base64Chars (drawBytes src 0 27)).take 35)

/-- The errors of `format`: the template-attribute check (line 149), the
missing-DFSP check (lines 159-166), and the JavaScript `TypeError`s a
malformed template would cause. -/
inductive FormatError where
  | badTemplate : FormatError
  | unknownParticipant : FormatError
  | typeErr : FormatError
deriving Repr, DecidableEq

/-- The credit-transfer entries of one payer (lines 206-215): each entry
spreads the stamped prototype (so it carries the prototype's `RmtInf`),
then overrides `PmtId` (5 fresh random bytes as 10 hex characters),
`Amt`, `Cdtr` and `CdtrAcct`.  `off` is the position of the random
stream; entries are built left to right. -/
def buildCdtTrf (src : ℕ → ℕ) (currency : String)
    (conf : List (ℕ × DfspRec)) (proto : Option CdtTrfTxInfT) :
    ℕ → List (ℕ × Big) → List CdtTrfTxInfT
  | _, [] => []
  | off, (payee, amount) :: rest =>
    let rec0 := (dfspLookup conf payee).getD default
    { PmtId := ⟨⟨String.mk (hexOfBytes (drawBytes src off 5))⟩⟩,
      Amt := ⟨⟨⟨currency⟩, amount⟩⟩,
      Cdtr := ⟨⟨rec0.name⟩, ⟨⟨rec0.country⟩⟩, ⟨⟨"Casablanca JV Org"⟩⟩⟩,
      CdtrAcct := ⟨⟨⟨⟨String.mk (rec0.accountId.dropWhile fun c => c = '0')⟩⟩⟩⟩,
      RmtInf := proto.bind (·.RmtInf) } ::
      buildCdtTrf src currency conf proto (off + 5) rest

/-- The per-payer `PmtInf` groups (lines 191-216), with the payer
ordinal `i` and the random-stream position `off` threaded through. -/
def buildPmtInfs (src : ℕ → ℕ) (currency nowDate : String)
    (conf : List (ℕ × DfspRec)) (proto : Option CdtTrfTxInfT) :
    ℕ → ℕ → List (ℕ × List (ℕ × Big)) → List PmtInfT
  | _, _, [] => []
  | i, off, (payer, payments) :: rest =>
    let rec0 := (dfspLookup conf payer).getD default
    { PmtInfId := String.mk (natToChars i),
      NbOfTxs := payments.length,
      CtrlSum := payments.foldl (fun pv cv => Big.add pv cv.2) Big.zero,
      ReqdExctnDt := nowDate,
      Dbtr := ⟨⟨rec0.name⟩, ⟨⟨rec0.country⟩⟩, ⟨⟨⟨"CITICIAX"⟩⟩⟩⟩,
      DbtrAcct := ⟨⟨⟨⟨String.mk (rec0.accountId.dropWhile fun c => c = '0')⟩⟩⟩,
        ⟨currency⟩⟩,
      CdtTrfTxInf := buildCdtTrf src currency conf proto off payments } ::
      buildPmtInfs src currency nowDate conf proto (i + 1)
        (off + 5 * payments.length) rest

/-- `format` (settlement module lines 146-221).  The template tree is
threaded explicitly: the source mutates `template` in place (lines
178-181, 189 and 218) and returns that same object, so the returned
tree IS the template's post-call state.  `src` is the byte stream of
`crypto.randomBytes` (27 bytes for `MsgId`, then 5 per credit-transfer
entry in emission order), `now` the ISO instant of `new Date()`. -/
def format (src : ℕ → ℕ) (now : String) (currency : String)
    (matrix : List (ℕ × List (ℕ × Big))) (dfspConf : List (ℕ × DfspRec))
    (template : TemplateDoc) (windowId : String) :
    Except FormatError TemplateDoc :=
  if ¬ template.Document._attributes.xmlns =
      "urn:iso:std:iso:20022:tech:xsd:pain.001.001.03" then
    .error .badTemplate
  else
    let paymentsArr := matrix.flatMap fun row =>
      row.2.map fun cell => (row.1, cell.1, cell.2)
    if paymentsArr.any (fun t =>
        (dfspLookup dfspConf t.1).isNone ∨ (dfspLookup dfspConf t.2.1).isNone) then
      .error .unknownParticipant
    else
      match template.Document.CstmrCdtTrfInitn.PmtInf with
      | .many _ => .error .typeErr
      | .one pmtInfTemplate =>
        if pmtInfTemplate.CdtTrfTxInf.any (·.RmtInf.isNone) then .error .typeErr
        else
          let stamped := pmtInfTemplate.CdtTrfTxInf.map fun acc =>
            { acc with RmtInf := acc.RmtInf.map fun r =>
                { r with Ustrd := ⟨"Settlement Window " ++ windowId⟩ } }
          let nowDate := String.mk (now.toList.takeWhile fun c => ¬ c = 'T')
          .ok { Document :=
            { _attributes := template.Document._attributes,
              CstmrCdtTrfInitn :=
              { GrpHdr :=
                { MsgId := ⟨msgIdFrom src⟩,
                  CreDtTm := ⟨now⟩,
                  NbOfTxs := ⟨paymentsArr.length⟩,
                  CtrlSum := ⟨paymentsArr.foldl
                    (fun pv cv => Big.add pv cv.2.2) Big.zero⟩ },
                PmtInf := .many (buildPmtInfs src currency nowDate dfspConf
                  stamped.head? 0 27 matrix) } } }

/-- The all-zero random source: every `crypto.randomBytes` call returns
zero bytes (a possible output of the CSPRNG). -/
def zeroSrc : ℕ → ℕ := fun _ => 0

/-- A minimal well-formed skeleton: correct namespace, one prototype
`PmtInf` with one prototype `CdtTrfTxInf` whose `Ustrd` still carries
placeholder text. -/
def sampleTemplate : TemplateDoc :=
  { Document :=
    { _attributes := ⟨"urn:iso:std:iso:20022:tech:xsd:pain.001.001.03"⟩,
      CstmrCdtTrfInitn :=
      { GrpHdr := ⟨⟨"TMPLMSG"⟩, ⟨"TMPLDATE"⟩, ⟨0⟩, ⟨Big.zero⟩⟩,
        PmtInf := .one
          { PmtInfId := "TPL",
            NbOfTxs := 0,
            CtrlSum := Big.zero,
            ReqdExctnDt := "TPLDATE",
            Dbtr := ⟨⟨"TPLNAME"⟩, ⟨⟨"XX"⟩⟩, ⟨⟨⟨"TPLBIC"⟩⟩⟩⟩,
            DbtrAcct := ⟨⟨⟨⟨"TPLACCT"⟩⟩⟩, ⟨"XXX"⟩⟩,
            CdtTrfTxInf :=
              [{ PmtId := ⟨⟨"TPLE2E"⟩⟩,
                 Amt := ⟨⟨⟨"XXX"⟩, Big.zero⟩⟩,
                 Cdtr := ⟨⟨"TPLCDTR"⟩, ⟨⟨"XX"⟩⟩, ⟨⟨"TPLCTCT"⟩⟩⟩,
                 CdtrAcct := ⟨⟨⟨⟨"TPLCACCT"⟩⟩⟩⟩,
                 RmtInf := some ⟨⟨"TPLUSTRD"⟩⟩ }] } } } }

/-- A directory holding the two participants of the sample matrix. -/
def sampleConf : List (ℕ × DfspRec) :=
  [(1, ⟨"DFSP One", "CI", ['0', '0', '7']⟩), (2, ⟨"DFSP Two", "SN", ['4', '2']⟩)]


/-- C8: with the random source returning five zero bytes (a possible
CSPRNG output), the emitted credit-transfer entry carries
`PmtId.EndToEndId = "0000000000"` — the source never re-rolls, although
its own comment says the id cannot be zero. -/
theorem c8_zero_end_to_end_id :
    (format zeroSrc "2020-01-02T03:04:05.678Z" "USD" [(1, [(2, ⟨10, 0⟩)])]
        sampleConf sampleTemplate "99").toOption.map
      (fun doc => (pmtInfList doc).flatMap fun p =>
        p.CdtTrfTxInf.map fun t => t.PmtId.EndToEndId._text) =
      some ["0000000000"] := by decide

/-- C9: `format` returns the template object itself after writing
through it (lines 178-181, 189, 218), so the template tree after the
call — the returned document — differs from its value before the call:
no deep clone happens. -/
theorem c9_template_mutated :
    (format zeroSrc "2020-01-02T03:04:05.678Z" "USD" [(1, [(2, ⟨10, 0⟩)])]
        sampleConf sampleTemplate "99").isOk = true ∧
      (format zeroSrc "2020-01-02T03:04:05.678Z" "USD" [(1, [(2, ⟨10, 0⟩)])]
        sampleConf sampleTemplate "99").toOption ≠ some sampleTemplate := by
  decide

theorem foldl_triple_val : ∀ (l : List (ℕ × ℕ × Big)) (acc : Big),
    (l.foldl (fun pv cv => Big.add pv cv.2.2) acc).val =
      acc.val + (l.map fun x => x.2.2.val).sum := by
  intro l
  induction l with
  | nil => intro acc; simp
  | cons x l ih =>
    intro acc
    rw [List.foldl_cons, ih, Big.val_add, List.map_cons, List.sum_cons]
    ring

theorem foldl_pair_val : ∀ (l : List (ℕ × Big)) (acc : Big),
    (l.foldl (fun pv cv => Big.add pv cv.2) acc).val =
      acc.val + (l.map fun x => x.2.val).sum := by
  intro l
  induction l with
  | nil => intro acc; simp
  | cons x l ih =>
    intro acc
    rw [List.foldl_cons, ih, Big.val_add, List.map_cons, List.sum_cons]
    ring

theorem sum_flatMap_q {α β : Type} (g : β → ℚ) (f : α → List β) :
    ∀ l : List α,
      ((l.flatMap f).map g).sum = (l.map fun a => ((f a).map g).sum).sum := by
  intro l
  induction l with
  | nil => simp
  | cons a l ih =>
    rw [List.flatMap_cons, List.map_append, List.sum_append, ih,
      List.map_cons, List.sum_cons]

theorem buildPmtInfs_nbOfTxs (src : ℕ → ℕ) (currency nowDate : String)
    (conf : List (ℕ × DfspRec)) (proto : Option CdtTrfTxInfT) :
    ∀ (rows : List (ℕ × List (ℕ × Big))) (i off : ℕ),
      (buildPmtInfs src currency nowDate conf proto i off rows).map (·.NbOfTxs) =
        rows.map (·.2.length) := by
  intro rows
  induction rows with
  | nil => intro i off; rfl
  | cons row rows ih =>
    intro i off
    rw [buildPmtInfs, List.map_cons, List.map_cons, ih]

theorem buildPmtInfs_ctrlSum (src : ℕ → ℕ) (currency nowDate : String)
    (conf : List (ℕ × DfspRec)) (proto : Option CdtTrfTxInfT) :
    ∀ (rows : List (ℕ × List (ℕ × Big))) (i off : ℕ),
      (buildPmtInfs src currency nowDate conf proto i off rows).map
          (fun p => p.CtrlSum.val) =
        rows.map fun row =>
          (row.2.foldl (fun pv cv => Big.add pv cv.2) Big.zero).val := by
  intro rows
  induction rows with
  | nil => intro i off; rfl
  | cons row rows ih =>
    intro i off
    rw [buildPmtInfs, List.map_cons, List.map_cons, ih]

/-- C10: in every document `format` produces, the group header's
`NbOfTxs` is the sum of the per-payer `PmtInf` transaction counts, and
the group header's `CtrlSum` is the exact decimal sum of the per-payer
`CtrlSum` values. -/
theorem c10_header_consistency {src : ℕ → ℕ} {now currency : String}
    {matrix : List (ℕ × List (ℕ × Big))} {conf : List (ℕ × DfspRec)}
    {tmpl : TemplateDoc} {wid : String} {doc : TemplateDoc}
    (h : format src now currency matrix conf tmpl wid = .ok doc) :
    doc.Document.CstmrCdtTrfInitn.GrpHdr.NbOfTxs._text =
        ((pmtInfList doc).map (·.NbOfTxs)).sum ∧
      doc.Document.CstmrCdtTrfInitn.GrpHdr.CtrlSum._text.val =
        ((pmtInfList doc).map fun p => p.CtrlSum.val).sum := by
  unfold format at h
  dsimp only at h
  repeat' split at h
  any_goals cases h
  refine ⟨?_, ?_⟩
  · show (matrix.flatMap fun row =>
        row.2.map fun cell => (row.1, cell.1, cell.2)).length = _
    rw [List.length_flatMap]
    simp only [pmtInfList]
    rw [buildPmtInfs_nbOfTxs]
    refine congrArg List.sum (List.map_congr_left ?_)
    intro row hrow
    simp [List.length_map]
  · show ((matrix.flatMap fun row =>
        row.2.map fun cell => (row.1, cell.1, cell.2)).foldl
          (fun pv cv => Big.add pv cv.2.2) Big.zero).val = _
    rw [foldl_triple_val, Big.val_zero, zero_add]
    simp only [pmtInfList]
    rw [buildPmtInfs_ctrlSum]
    rw [sum_flatMap_q (fun t => t.2.2.val)
      (fun row => row.2.map fun cell => (row.1, cell.1, cell.2)) matrix]
    refine congrArg List.sum (List.map_congr_left ?_)
    intro row hrow
    rw [List.map_map]
    rw [foldl_pair_val, Big.val_zero, zero_add]
    rfl

/-- The document the sample `format` call produces (35 `A`s are the
base64 rendering of 27 zero bytes, truncated). -/
def sampleOutDoc : TemplateDoc :=
  { Document :=
    { _attributes := ⟨"urn:iso:std:iso:20022:tech:xsd:pain.001.001.03"⟩,
      CstmrCdtTrfInitn :=
      { GrpHdr := ⟨⟨"AAAAAAAAAAAAAAAAAAAAAAAAAAAAAAAAAAA"⟩,
          ⟨"2020-01-02T03:04:05.678Z"⟩, ⟨1⟩, ⟨⟨10, 0⟩⟩⟩,
        PmtInf := .many
          [{ PmtInfId := "0",
             NbOfTxs := 1,
             CtrlSum := ⟨10, 0⟩,
             ReqdExctnDt := "2020-01-02",
             Dbtr := ⟨⟨"DFSP One"⟩, ⟨⟨"CI"⟩⟩, ⟨⟨⟨"CITICIAX"⟩⟩⟩⟩,
             DbtrAcct := ⟨⟨⟨⟨"7"⟩⟩⟩, ⟨"USD"⟩⟩,
             CdtTrfTxInf :=
               [{ PmtId := ⟨⟨"0000000000"⟩⟩,
                  Amt := ⟨⟨⟨"USD"⟩, ⟨10, 0⟩⟩⟩,
                  Cdtr := ⟨⟨"DFSP Two"⟩, ⟨⟨"SN"⟩⟩, ⟨⟨"Casablanca JV Org"⟩⟩⟩,
                  CdtrAcct := ⟨⟨⟨⟨"42"⟩⟩⟩⟩,
                  RmtInf := some ⟨⟨"Settlement Window 99"⟩⟩ }] }] } } }

theorem c10_header_consistency_witness :
    format zeroSrc "2020-01-02T03:04:05.678Z" "USD" [(1, [(2, ⟨10, 0⟩)])]
        sampleConf sampleTemplate "99" = .ok sampleOutDoc ∧
      (sampleOutDoc.Document.CstmrCdtTrfInitn.GrpHdr.NbOfTxs._text =
          ((pmtInfList sampleOutDoc).map (·.NbOfTxs)).sum ∧
        sampleOutDoc.Document.CstmrCdtTrfInitn.GrpHdr.CtrlSum._text.val =
          ((pmtInfList sampleOutDoc).map fun p => p.CtrlSum.val).sum) :=
  ⟨by decide, @c10_header_consistency zeroSrc "2020-01-02T03:04:05.678Z" "USD"
    [(1, [(2, ⟨10, 0⟩)])] sampleConf sampleTemplate "99" sampleOutDoc
    (by decide)⟩
